import Mathlib

/-
Verification of the Charly virtual machine runtime core
(value representation, operators, and the mark-and-sweep collector)
against its natural-language specification.

The definitions below are a shallow embedding of the C++ sources:
  - include/value.h      (tagged 64-bit values, heap object layouts)
  - src/vm/operators.cpp (Operators::add, Operators::truthyness)
  - src/gc.cpp           (MemoryManager: mark, collect, free, allocate,
                          add_heap, grow_heap, temporaries)
Machine integers are modelled as Nat/Int with explicit reduction mod 2^64
where the C code relies on wrap-around.  Helpers that the sources call but
whose definitions are not part of the given files (VM::type,
VM::numeric_value, VM::create_float, the GC size constants) are modelled
from the specification and marked as such in their doc comments.
-/

namespace Charly

/- The C `VALUE` type (a tagged 64-bit `uint64_t` word) is modelled as `Nat`;
encodings reduce mod 2^64 where the C code wraps. -/

/-! ## Flag constants from include/value.h -/

/-- Mask for the type field of the `Basic` flags byte (`0b00011111`). -/
def kFlagType : Nat := 0b00011111

/-- Mask for the mark bit of the `Basic` flags byte (`0b00100000`). -/
def kFlagMark : Nat := 0b00100000

/-! ## Type tag constants (enum kValueTypes in include/value.h).
The enum in include/value.h ends at `kTypeCatchTable`; gc.cpp additionally
handles `kTypeInstructionBlock`, which the spec lists directly after
`catchtable` in its type table, so it is modelled with the next tag. -/

def kTypeDead : Nat := 0

def kTypeInteger : Nat := 1

def kTypeFloat : Nat := 2

def kTypeString : Nat := 3

def kTypeNumeric : Nat := 4

def kTypeBoolean : Nat := 5

def kTypeNull : Nat := 6

def kTypeObject : Nat := 7

def kTypeArray : Nat := 8

def kTypeFunction : Nat := 9

def kTypeCFunction : Nat := 10

def kTypeClass : Nat := 11

def kTypeSymbol : Nat := 12

def kTypeFrame : Nat := 13

def kTypeCatchTable : Nat := 14

/-- Modelled from the spec: the spec's type table lists `instruction_block`
directly after `catchtable`; the tag value itself does not appear in the
given sources. -/
def kTypeInstructionBlock : Nat := 15

/-! ## Low-bit tagging constants from include/value.h -/

def kPointerMask : Nat := 0b00111

def kPointerFlag : Nat := 0b00000

def kIntegerMask : Nat := 0b00001

def kIntegerFlag : Nat := 0b00001

def kFloatMask : Nat := 0b00011

def kFloatFlag : Nat := 0b00010

def kSymbolMask : Nat := 0b01111

def kSymbolFlag : Nat := 0b01100

def kFalse : Nat := 0b00000

def kTrue : Nat := 0b10100

def kNull : Nat := 0b01000

/-! ## Value predicates from include/value.h -/

/-- C `is_boolean`: `value == kFalse || value == kTrue`. -/
def is_boolean (value : Nat) : Bool :=
  value == kFalse || value == kTrue

/-- C `is_integer`: `(value & kIntegerMask) == kIntegerFlag`. -/
def is_integer (value : Nat) : Bool :=
  (value &&& kIntegerMask) == kIntegerFlag

/-- C `is_ifloat`: `(value & kFloatMask) == kFloatFlag`. -/
def is_ifloat (value : Nat) : Bool :=
  (value &&& kFloatMask) == kFloatFlag

/-- C `is_symbol`: `(value & kSymbolMask) == kSymbolFlag`. -/
def is_symbol (value : Nat) : Bool :=
  (value &&& kSymbolMask) == kSymbolFlag

/-- C `is_false`: `value == kFalse`. -/
def is_false (value : Nat) : Bool :=
  value == kFalse

/-- C `is_true`: `value == kTrue`. -/
def is_true (value : Nat) : Bool :=
  value == kTrue

/-- C `is_null`: `value == kNull`. -/
def is_null (value : Nat) : Bool :=
  value == kNull

/-- C `is_pointer`:
`!is_null(value) && !is_false(value) && ((value & kPointerMask) == kPointerFlag)`. -/
def is_pointer (value : Nat) : Bool :=
  !is_null value && !is_false value && ((value &&& kPointerMask) == kPointerFlag)

/-- C `is_special`: `!is_pointer(value)`. -/
def is_special (value : Nat) : Bool :=
  !is_pointer value

/-! ## Integer encoding (include/value.h lines 331-339) -/

/-- C `VALUE_ENCODE_INTEGER`: `(static_cast<VALUE>(value) << 1) | kIntegerFlag`.
The cast of the `int64_t` argument to `uint64_t` is the representative of
`value` mod 2^64, and the `uint64_t` shift wraps mod 2^64. -/
def VALUE_ENCODE_INTEGER (value : Int) : Nat :=
  (((value % 2 ^ 64).toNat <<< 1) % 2 ^ 64) ||| kIntegerFlag

/-- Reinterpretation of a 64-bit word as a two's-complement `int64_t`
(the C `static_cast<int64_t>(value)`). -/
def toInt64 (v : Nat) : Int :=
  if v % 2 ^ 64 < 2 ^ 63 then ((v % 2 ^ 64 : Nat) : Int)
  else ((v % 2 ^ 64 : Nat) : Int) - 2 ^ 64

/-- C `VALUE_DECODE_INTEGER`: `static_cast<int64_t>(value) >> 1`.
The arithmetic right shift by one of an `int64_t` is floor division by 2. -/
def VALUE_DECODE_INTEGER (value : Nat) : Int :=
  (toInt64 value).fdiv 2

/-! ## Heap cells (include/value.h object layouts, gc.cpp cell model) -/

/-- Model of the C `double`: either a finite value, tracked exactly as a
rational, or NaN.  Infinities and the rounding of finite results are not
modelled; addition is NaN-propagating as in IEEE-754. -/
inductive CDouble where
  | num (q : ℚ)
  | nan
deriving DecidableEq, Repr

/-- NaN-propagating addition on modelled doubles. -/
def CDouble.add : CDouble → CDouble → CDouble
  | .num a, .num b => .num (a + b)
  | _, _ => .nan

/-- Test `value == 0` on a modelled double; NaN compares unequal to zero. -/
def CDouble.isZero : CDouble → Bool
  | .num q => q == 0
  | .nan => false

/-- Payload of a heap cell, one constructor per heap object variant of
include/value.h, carrying exactly the fields the collector and the
operators inspect.  The C union tag (the 5-bit type field of the `Basic`
flags byte) is represented by the constructor; pointer-valued fields are
the corresponding `VALUE` words (null pointers are the word 0). -/
inductive CellContent where
  | dead (next : Option Nat)
  | floatv (float_value : CDouble)
  | stringv
  | object (klass : Nat) (container : List (Nat × Nat))
  | array (data : List Nat)
  | function (name : Nat) (context : Nat) (block : Nat) (bound_self_set : Bool)
      (bound_self : Nat) (container : List (Nat × Nat))
  | cfunction (name : Nat) (bound_self_set : Bool) (bound_self : Nat)
      (container : List (Nat × Nat))
  | classv (name : Nat) (constructor : Nat) (member_properties : List Nat)
      (prototype : Nat) (parent_class : Nat) (container : List (Nat × Nat))
  | frame (parent : Nat) (parent_environment_frame : Nat)
      (last_active_catchtable : Nat) (function : Nat) (environment : List Nat)
      (self : Nat)
  | catchtable (frame : Nat) (parent : Nat)
  | instructionblock (child_blocks : List Nat)
deriving DecidableEq, Repr

/-- The 5-bit type tag of a cell (`Basic::type()`), determined by the
active union member. -/
def CellContent.typeOf : CellContent → Nat
  | .dead _ => kTypeDead
  | .floatv _ => kTypeFloat
  | .stringv => kTypeString
  | .object .. => kTypeObject
  | .array _ => kTypeArray
  | .function .. => kTypeFunction
  | .cfunction .. => kTypeCFunction
  | .classv .. => kTypeClass
  | .frame .. => kTypeFrame
  | .catchtable .. => kTypeCatchTable
  | .instructionblock _ => kTypeInstructionBlock

/-- A heap cell: the mark bit of the `Basic` flags byte plus the payload. -/
structure Cell where
  mark : Bool
  content : CellContent
deriving DecidableEq, Repr

/-- The managed heap: an association of 8-byte-aligned cell addresses to
cells (all cells of all heap regions, in region order). -/
abbrev Heap := List (Nat × Cell)

/-- Reading the cell behind a value (`basics(value)` dereference): the
first binding of the address in the heap association list. -/
def lookupCell : Heap → Nat → Option Cell
  | [], _ => none
  | (k, c) :: rest, a => if k = a then some c else lookupCell rest a

/-! ## is_numeric (include/value.h lines 160-171) -/

/-- C `is_numeric`: immediate integers and immediate floats are numeric, and
a non-special value (a heap pointer) is numeric iff its cell's type is
`kTypeFloat`.  The C code dereferences the pointer unconditionally; the
model returns false on a dangling pointer. -/
def is_numeric (h : Heap) (value : Nat) : Bool :=
  if is_integer value then true
  else if is_ifloat value then true
  else if !is_special value then
    match lookupCell h value with
    | some cell => cell.content.typeOf == kTypeFloat
    | none => false
  else false

/-- Modelled from the spec: `VM::numeric_value` widens a numeric value to a
double — an immediate integer to its decoded value, an immediate float via
the immediate-float decoding (which is not part of the given sources and is
therefore a parameter `ifv`), a boxed Float to its stored double.  The VM
only calls the helper behind a numeric type test; the model returns NaN
elsewhere. -/
def numeric_value (ifv : Nat → CDouble) (h : Heap) (value : Nat) : CDouble :=
  if is_integer value then .num (VALUE_DECODE_INTEGER value : ℚ)
  else if is_ifloat value then ifv value
  else
    match lookupCell h value with
    | some cell =>
      match cell.content with
      | .floatv d => d
      | _ => .nan
    | none => .nan

/-- Modelled from the spec: `VM::type` reports the coarse runtime type of a
value — all numeric values (immediate integers, immediate floats, boxed
floats) report `kTypeNumeric`; booleans, null and symbols report their
immediate types; any other heap pointer reports its cell's type tag; a
dangling pointer reports `kTypeDead`. -/
def VMtype (h : Heap) (value : Nat) : Nat :=
  if is_numeric h value then kTypeNumeric
  else if is_boolean value then kTypeBoolean
  else if is_null value then kTypeNull
  else if is_symbol value then kTypeSymbol
  else if is_pointer value then
    match lookupCell h value with
    | some cell => cell.content.typeOf
    | none => kTypeDead
  else kTypeDead

/-- Fresh 8-byte-aligned address strictly above every address of the heap:
the model's stand-in for the allocator's choice of a fresh cell. -/
def freshAddr (h : Heap) : Nat :=
  8 * ((h.map Prod.fst).foldr max 1) + 8

/-- Modelled from the spec: `VM::create_float` produces a float value
carrying the given double.  The spec produces an immediate float when the
encoding fits and otherwise allocates a boxed Float cell; the
immediate-float encoding is not part of the given sources, so the model
always allocates a boxed Float cell (the general fallback), which has the
same runtime type. -/
def create_float (h : Heap) (d : CDouble) : Nat × Heap :=
  let a := freshAddr h
  (a, (a, ⟨false, .floatv d⟩) :: h)

/-! ## Operators (src/vm/operators.cpp) -/

/-- C `Operators::add`: if both operands have runtime type `kTypeNumeric`,
create a float carrying the double sum of the widened operands; otherwise
create a NaN float. -/
def Operators.add (ifv : Nat → CDouble) (h : Heap) (left right : Nat) :
    Nat × Heap :=
  if VMtype h left == kTypeNumeric && VMtype h right == kTypeNumeric then
    create_float h
      (CDouble.add (numeric_value ifv h left) (numeric_value ifv h right))
  else
    create_float h .nan

/-- C `Operators::truthyness`: a numeric value is truthy iff its widened
double compares unequal to zero; null and false are falsy; every other
value is truthy. -/
def Operators.truthyness (ifv : Nat → CDouble) (h : Heap) (value : Nat) :
    Bool :=
  if is_numeric h value then !(numeric_value ifv h value).isZero
  else if is_null value then false
  else if is_false value then false
  else true

/-! ## The arithmetic scenario program (spec section 8, scenario 1) -/

/-- Opcodes needed for the spec's straight-line arithmetic scenario.
Modelled from the spec: `putvalue` pushes its embedded constant, `add` pops
two operands and pushes `Operators::add` of them, `return` yields the top
of stack. -/
inductive SimpleInstr where
  | putvalue (v : Nat)
  | add
  | ret
deriving DecidableEq, Repr

/-- Modelled from the spec: execution of a straight-line program over the
operand stack, as the interpreter loop performs it for the three opcodes
above.  Execution yields the returned value and the final heap, or `none`
when the program falls off its end or underflows the stack. -/
def execInstrs (ifv : Nat → CDouble) :
    List SimpleInstr → List Nat → Heap → Option (Nat × Heap)
  | .putvalue v :: rest, stack, h => execInstrs ifv rest (v :: stack) h
  | .add :: rest, right :: left :: stack, h =>
    let vh := Operators.add ifv h left right
    execInstrs ifv rest (vh.1 :: stack) vh.2
  | .ret :: _, top :: _, h => some (top, h)
  | _, _, _ => none

/-- Immediate-float decoding used for concrete program runs; the test
programs contain no immediate floats, so the choice is irrelevant. -/
def ifv0 : Nat → CDouble := fun _ => CDouble.nan

/-- The bytecode program `put 2; put 3; add; return` with its integer
constants in the tagged encoding. -/
def addTwoThreeProgram : List SimpleInstr :=
  [.putvalue (VALUE_ENCODE_INTEGER 2), .putvalue (VALUE_ENCODE_INTEGER 3),
    .add, .ret]

/-! ## The collector (src/gc.cpp) -/

/-- The values `MemoryManager::mark` recurses into for a cell of the given
payload (gc.cpp lines 86-138), in the order the switch marks them.  Types
without a case in the switch (among them `Class` and boxed floats)
contribute no edges. -/
def CellContent.gcReferences : CellContent → List Nat
  | .object klass container => klass :: container.map Prod.snd
  | .array data => data
  | .function _ context block bound_self_set bound_self _ =>
    [context, block] ++ (if bound_self_set then [bound_self] else [])
  | .cfunction _ bound_self_set bound_self _ =>
    if bound_self_set then [bound_self] else []
  | .frame parent parent_environment_frame _ func environment self =>
    [parent, parent_environment_frame, func, self] ++ environment
  | .catchtable fr parent => [fr, parent]
  | .instructionblock child_blocks => child_blocks
  | _ => []

/-- Setting the mark bit of the cell at address `a`
(`basics(value)->set_mark(m)`). -/
def setMark (h : Heap) (a : Nat) (m : Bool) : Heap :=
  h.map fun p => if p.1 = a then (p.1, ⟨m, p.2.content⟩) else p

/-- Number of unmarked cells of the heap; a bound on the depth of the
recursion of `MemoryManager::mark`, since every level of nesting first
marks a previously unmarked cell. -/
def unmarkedCount (h : Heap) : Nat :=
  (h.filter fun p => !p.2.mark).length

/-- C `MemoryManager::mark` (gc.cpp lines 81-139), with an explicit bound
`fuel` on the recursion depth: return on non-pointers, dangling pointers
and already-marked cells; otherwise set the mark bit and recurse into the
cell's references in order.  Any `fuel` exceeding the number of unmarked
cells behaves identically. -/
def markFuel : Nat → Heap → Nat → Heap
  | 0, h, _ => h
  | fuel + 1, h, value =>
    if !is_pointer value then h
    else
      match lookupCell h value with
      | none => h
      | some cell =>
        if cell.mark then h
        else
          cell.content.gcReferences.foldl (fun hh v => markFuel fuel hh v)
            (setMark h value true)

/-- C `MemoryManager::mark` with sufficient fuel. -/
def mark (h : Heap) (value : Nat) : Heap :=
  markFuel (unmarkedCount h + 1) h value

/-- A scheduled VM callback (struct VMTask of include/vm.h). -/
structure VMTask where
  uid : Nat
  fn : Nat
  argument : Nat
deriving DecidableEq, Repr

/-- The VM state visible to the collector: the operand stack, the current
frame chain and catch-table chain (the `VALUE` words of the head pointers,
0 when null), and — relevant to the root-set claims — the task queue, the
pending timers and intervals, and the primitive-class references of
include/vm.h. -/
structure VM where
  stack : List Nat
  frames : Nat
  catchstack : Nat
  task_queue : List VMTask
  timers : List (Nat × VMTask)
  intervals : List (Nat × VMTask × Nat)
  primitive_value : Nat
  primitive_object : Nat
  primitive_class : Nat
  primitive_array : Nat
  primitive_string : Nat
  primitive_number : Nat
  primitive_function : Nat
  primitive_generator : Nat
  primitive_boolean : Nat
  primitive_null : Nat
deriving DecidableEq, Repr

/-- State of the memory manager: all cells of all heap regions in region
order, the free-list head pointer, the temporary-root set, and the number
of heap regions (`heaps.size()`). -/
structure MemoryManager where
  cells : Heap
  free_cell : Option Nat
  temporaries : List Nat
  heap_count : Nat
deriving DecidableEq, Repr

/-- C `MemoryManager::register_temporary`: insert the value into the
temporary set. -/
def MemoryManager.register_temporary (mm : MemoryManager) (value : Nat) :
    MemoryManager :=
  { mm with temporaries := value :: mm.temporaries }

/-- C `MemoryManager::unregister_temporary`: erase one registration of the
value. -/
def MemoryManager.unregister_temporary (mm : MemoryManager) (value : Nat) :
    MemoryManager :=
  { mm with temporaries := mm.temporaries.erase value }

/-- C `MemoryManager::free` (gc.cpp lines 200-244): drop the cell from the
temporary set when its count there is exactly one, run the type-specific
destructor (which only releases unmodelled auxiliary buffers), zero the
cell — making it unmarked and `dead` — thread it onto the free list and
make it the new free-list head. -/
def MemoryManager.free (mm : MemoryManager) (a : Nat) : MemoryManager :=
  let mm1 :=
    if mm.temporaries.count a = 1 then mm.unregister_temporary a else mm
  { mm1 with
    cells := mm1.cells.map fun p =>
      if p.1 = a then (p.1, ⟨false, .dead mm1.free_cell⟩) else p,
    free_cell := some a }

/-- The sweep phase of `MemoryManager::collect` (gc.cpp lines 150-167),
iterating over the cells of all regions in order: clear the mark bit of
marked cells; free unmarked cells that are not already dead.  Returns the
final state and the number of freed cells. -/
def sweep : List Nat → MemoryManager → MemoryManager × Nat
  | [], mm => (mm, 0)
  | a :: rest, mm =>
    match lookupCell mm.cells a with
    | none => sweep rest mm
    | some cell =>
      if cell.mark then
        sweep rest { mm with cells := setMark mm.cells a false }
      else if cell.content.typeOf = kTypeDead then
        sweep rest mm
      else
        let r := sweep rest (mm.free a)
        (r.1, r.2 + 1)

/-- C `MemoryManager::collect` (gc.cpp lines 141-171): mark every value on
the VM operand stack, every temporary root, the current frame chain and
the current catch-table chain; then sweep every cell of every heap region.
Returns the new state and the number of freed cells. -/
def MemoryManager.collect (mm : MemoryManager) (vm : VM) :
    MemoryManager × Nat :=
  let h0 := vm.stack.foldl mark mm.cells
  let h1 := mm.temporaries.foldl mark h0
  let h2 := mark h1 vm.frames
  let h3 := mark h2 vm.catchstack
  sweep (h3.map Prod.fst) { mm with cells := h3 }

/-- Cells of a freshly calloc'ed heap region: `count` dead cells at
consecutive 8-byte-spaced fresh addresses starting at `base`, threaded
onto the free list exactly as the loop of `MemoryManager::add_heap` does
(cell `i` points to cell `i-1`, the first cell to the old free-list head);
returns the cells in address order together with the new free-list head. -/
def linkCells (base : Nat) : Nat → Option Nat → Heap × Option Nat
  | 0, prev => ([], prev)
  | count + 1, prev =>
    let rest := linkCells (base + 8) count (some base)
    ((base, ⟨false, .dead prev⟩) :: rest.1, rest.2)

/-- GC sizing constants.  Modelled from the spec: the per-region cell count
and the heap growth factor are compile-time constants whose definitions are
not part of the given sources (e.g. 1024 cells per region, growth factor
2). -/
structure GCConfig where
  heap_cell_count : Nat
  growth_factor : Nat
deriving DecidableEq, Repr

/-- C `MemoryManager::add_heap`: allocate a region of `heap_cell_count`
zeroed cells (at fresh addresses in the model), append it to the region
list and push its cells onto the free list. -/
def MemoryManager.add_heap (cfg : GCConfig) (mm : MemoryManager) :
    MemoryManager :=
  let region := linkCells (freshAddr mm.cells) cfg.heap_cell_count mm.free_cell
  { mm with
    cells := mm.cells ++ region.1,
    free_cell := region.2,
    heap_count := mm.heap_count + 1 }

/-- C `MemoryManager::grow_heap`: add
`heap_count * growth_factor - heap_count` regions. -/
def MemoryManager.grow_heap (cfg : GCConfig) (mm : MemoryManager) :
    MemoryManager :=
  (MemoryManager.add_heap cfg)^[mm.heap_count * cfg.growth_factor - mm.heap_count] mm

/-- Observable side effects of `MemoryManager::allocate`: a triggered
collection (with its freed-cell count) and the diagnostic printed when
growing the heap failed to produce free cells. -/
inductive GCEvent where
  | collected (freed : Nat)
  | warnedExpandFailed
deriving DecidableEq, Repr

/-- Reading the free-list successor of a cell (`cell->as.free.next`); only
dead cells carry one. -/
def freeNext (h : Heap) (a : Nat) : Option Nat :=
  match lookupCell h a with
  | some ⟨_, .dead next⟩ => next
  | _ => none

/-- C `MemoryManager::allocate` (gc.cpp lines 173-198): pop the free-list
head; if the pop empties the free list, collect immediately; if the list is
still empty, grow the heap; if it is empty even then, print a diagnostic —
and carry on.  The popped cell (null when the free list was already empty)
is returned in every case. -/
def MemoryManager.allocate (cfg : GCConfig) (mm : MemoryManager) (vm : VM) :
    Option Nat × MemoryManager × List GCEvent :=
  match mm.free_cell with
  | none => (none, mm, [])
  | some a =>
    let mm1 := { mm with free_cell := freeNext mm.cells a }
    match mm1.free_cell with
    | some _ => (some a, mm1, [])
    | none =>
      let c := mm1.collect vm
      match c.1.free_cell with
      | some _ => (some a, c.1, [.collected c.2])
      | none =>
        let mm3 := c.1.grow_heap cfg
        match mm3.free_cell with
        | some _ => (some a, mm3, [.collected c.2])
        | none => (some a, mm3, [.collected c.2, .warnedExpandFailed])

/-! ## The mark-extension order: marking changes no address and no payload,
and never clears a mark. -/

/-- One heap extends another by marking when they have the same bindings up
to mark bits that may only have turned on. -/
def MarkExtends (h h' : Heap) : Prop :=
  List.Forall₂
    (fun p q => q.1 = p.1 ∧ q.2.content = p.2.content
      ∧ (p.2.mark = true → q.2.mark = true)) h h'

/-- A two-cell cyclic heap: a frame whose function field points to a
function whose lexical context points back to the frame. -/
def cyclicHeap : Heap :=
  [(16, ⟨false, .frame 0 0 0 24 [] 8⟩),
   (24, ⟨false, .function 12 16 0 false 0 []⟩)]

/-! ## Completeness of the mark phase -/

/-- Every marked cell has all its traced references marked, except possibly
those on the pending list: the invariant of the depth-first mark phase. -/
def ClosedExcept (h : Heap) (pend : List Nat) : Prop :=
  ∀ a c, lookupCell h a = some c → c.mark = true →
    ∀ b, b ∈ c.content.gcReferences → is_pointer b = true →
      ∀ cb, lookupCell h b = some cb → (cb.mark = true ∨ b ∈ pend)

/-! ## Reachability along the collector's edges -/

/-- Reachability from a root value along exactly the edges
`MemoryManager::mark` traces. -/
inductive Reaches (h : Heap) (v : Nat) : Nat → Prop
  | refl : Reaches h v v
  | step {a b : Nat} (hr : Reaches h v a) (hp : is_pointer a = true)
      (c : Cell) (hc : lookupCell h a = some c)
      (hb : b ∈ c.content.gcReferences) : Reaches h v b

/-! ## Properties of the sweep phase -/

/-- Replacing the cell stored at one address. -/
def updateAt (h : Heap) (a : Nat) (nc : Cell) : Heap :=
  h.map fun p => if p.1 = a then (p.1, nc) else p

/-! ## The free list -/

/-- Membership of the free list headed at `hd`, following the `free.next`
links through dead cells. -/
inductive FreeReach (cells : Heap) (hd : Option Nat) : Nat → Prop
  | head (a : Nat) (ha : hd = some a) : FreeReach cells hd a
  | step {b a : Nat} {m : Bool} (hb : FreeReach cells hd b)
      (hc : lookupCell cells b = some ⟨m, .dead (some a)⟩) :
      FreeReach cells hd a

/-- Every cell of the free list is dead. -/
def FreeListDead (cells : Heap) (hd : Option Nat) : Prop :=
  ∀ a, FreeReach cells hd a →
    ∃ m nx, lookupCell cells a = some ⟨m, .dead nx⟩

/-! ## Collection: roots, survival, and the free list -/

/-- The values gc.cpp's collect marks, in their order: the operand stack,
the temporary roots, the frame chain head and the catch-table chain head. -/
def rootValues (mm : MemoryManager) (vm : VM) : List Nat :=
  vm.stack ++ mm.temporaries ++ [vm.frames, vm.catchstack]

/-- Reachability from one of the four root groups the collector marks. -/
def RootReachable (mm : MemoryManager) (vm : VM) (a : Nat) : Prop :=
  ∃ r, r ∈ rootValues mm vm ∧ Reaches mm.cells r a

/-- A VM whose only reference to heap cell 16 sits in the task queue; no
operand stack, frames or catch tables. -/
def vmTask : VM :=
  { stack := [], frames := 0, catchstack := 0,
    task_queue := [⟨0, 16, 8⟩], timers := [], intervals := [],
    primitive_value := 8, primitive_object := 8, primitive_class := 8,
    primitive_array := 8, primitive_string := 8, primitive_number := 8,
    primitive_function := 8, primitive_generator := 8,
    primitive_boolean := 8, primitive_null := 8 }

/-- A one-cell heap holding a live array at address 16. -/
def mmTask : MemoryManager :=
  { cells := [(16, ⟨false, .array []⟩)], free_cell := none,
    temporaries := [], heap_count := 1 }

/-- A VM holding heap cell 16 on the operand stack. -/
def vmLive : VM :=
  { stack := [16], frames := 0, catchstack := 0,
    task_queue := [], timers := [], intervals := [],
    primitive_value := 8, primitive_object := 8, primitive_class := 8,
    primitive_array := 8, primitive_string := 8, primitive_number := 8,
    primitive_function := 8, primitive_generator := 8,
    primitive_boolean := 8, primitive_null := 8 }

/-- Three live cells: an array at 16 referencing a string at 24, and an
unreferenced string at 32. -/
def mmLive : MemoryManager :=
  { cells := [(16, ⟨false, .array [24]⟩), (24, ⟨false, .stringv⟩),
      (32, ⟨false, .stringv⟩)],
    free_cell := none, temporaries := [], heap_count := 1 }

/-! ## What mark visits on frames and functions (C8) -/

/-- A frame at 16 whose last active catch table is the cell at 24; no other
fields point anywhere. -/
def frameHeap : Heap :=
  [(16, ⟨false, .frame 0 0 24 0 [] 8⟩), (24, ⟨false, .catchtable 0 0⟩)]

/-- A function at 16 whose container holds the cell at 24; no other fields
point anywhere. -/
def funcHeap : Heap :=
  [(16, ⟨false, .function 12 0 0 false 0 [(12, 24)]⟩),
   (24, ⟨false, .array []⟩)]

/-- Witness for the amended C8: marking the frame at 16 marks its self
value — the cell at 24. -/
def frameHeapW : Heap :=
  [(16, ⟨false, .frame 0 0 0 0 [] 24⟩), (24, ⟨false, .stringv⟩)]

/-- A VM with no stack, frames, tasks or timers. -/
def vmEmpty : VM :=
  { stack := [], frames := 0, catchstack := 0,
    task_queue := [], timers := [], intervals := [],
    primitive_value := 8, primitive_object := 8, primitive_class := 8,
    primitive_array := 8, primitive_string := 8, primitive_number := 8,
    primitive_generator := 8, primitive_function := 8,
    primitive_boolean := 8, primitive_null := 8 }

/-- Two cells per region, growth factor two. -/
def cfgGrow2 : GCConfig := ⟨2, 2⟩

/-- A state with a single free cell and an empty region list, so that
growing the heap adds nothing. -/
def mmOneFree : MemoryManager :=
  { cells := [(16, ⟨false, .dead none⟩)], free_cell := some 16,
    temporaries := [], heap_count := 0 }

/-! ## Bridging lemmas for the bit-level operations -/

/-- A left shift by one is multiplication by two. -/
theorem shiftLeft_one (x : Nat) : x <<< 1 = 2 * x := by
  rw [Nat.shiftLeft_eq]
  ring

/-- Setting the low bit of an even number adds one. -/
theorem two_mul_lor_one (k : Nat) : (2 * k) ||| 1 = 2 * k + 1 := by
  apply Nat.eq_of_testBit_eq
  intro i
  rw [Nat.testBit_lor]
  cases i with
  | zero => simp [Nat.testBit_zero, Nat.mul_add_mod]
  | succ j =>
    rw [Nat.testBit_succ, Nat.testBit_succ, Nat.testBit_succ]
    have h1 : 2 * k / 2 = k := by omega
    have h2 : (2 * k + 1) / 2 = k := by omega
    have h3 : (1 : Nat) / 2 = 0 := by norm_num
    rw [h1, h2, h3]
    simp

/-- Masking with the low bit is reduction mod 2. -/
theorem land_one (x : Nat) : x &&& 1 = x % 2 := by
  simp [Nat.and_one_is_mod]

/-- Masking with the low two bits is reduction mod 4. -/
theorem land_three (x : Nat) : x &&& 3 = x % 4 := by
  simpa using Nat.and_pow_two_sub_one_eq_mod x 2

/-- Masking with the low three bits is reduction mod 8. -/
theorem land_seven (x : Nat) : x &&& 7 = x % 8 := by
  simpa using Nat.and_pow_two_sub_one_eq_mod x 3

/-- Masking with the low four bits is reduction mod 16. -/
theorem land_fifteen (x : Nat) : x &&& 15 = x % 16 := by
  simpa using Nat.and_pow_two_sub_one_eq_mod x 4

/-- The integer encoding, written arithmetically. -/
theorem encode_eq (value : Int) :
    VALUE_ENCODE_INTEGER value = (2 * (value % 2 ^ 64).toNat) % 2 ^ 64 + 1 := by
  unfold VALUE_ENCODE_INTEGER kIntegerFlag
  rw [shiftLeft_one]
  have h : (2 * (value % 2 ^ 64).toNat) % 2 ^ 64 = 2 * ((2 * (value % 2 ^ 64).toNat) % 2 ^ 64 / 2) := by
    omega
  rw [h, two_mul_lor_one]

/-! ## Arithmetic characterizations of the tag predicates -/

/-- A value is tagged as an immediate integer iff its low bit is set. -/
theorem is_integer_iff (v : Nat) : is_integer v = true ↔ v % 2 = 1 := by
  simp [is_integer, kIntegerMask, kIntegerFlag, land_one]

/-- A value is tagged as an immediate float iff its low two bits are `0b10`. -/
theorem is_ifloat_iff (v : Nat) : is_ifloat v = true ↔ v % 4 = 2 := by
  simp [is_ifloat, kFloatMask, kFloatFlag, land_three]

/-- A value is tagged as a symbol iff its low four bits are `0b1100`. -/
theorem is_symbol_iff (v : Nat) : is_symbol v = true ↔ v % 16 = 12 := by
  simp [is_symbol, kSymbolMask, kSymbolFlag, land_fifteen]

/-- A value is a boolean iff it is one of the two boolean words. -/
theorem is_boolean_iff (v : Nat) : is_boolean v = true ↔ v = 0 ∨ v = 20 := by
  simp [is_boolean, kFalse, kTrue]

/-- A value is null iff it is the null word. -/
theorem is_null_iff (v : Nat) : is_null v = true ↔ v = 8 := by
  simp [is_null, kNull]

/-- A value is the false word iff it is zero. -/
theorem is_false_iff (v : Nat) : is_false v = true ↔ v = 0 := by
  simp [is_false, kFalse]

/-- A value is a heap pointer iff it is 8-byte aligned and is neither the
null nor the false word. -/
theorem is_pointer_iff (v : Nat) :
    is_pointer v = true ↔ ¬v = 8 ∧ ¬v = 0 ∧ v % 8 = 0 := by
  simp [is_pointer, is_null, is_false, kNull, kFalse, kPointerMask, kPointerFlag,
    land_seven]
  tauto

/-- Helper: a list of six booleans with pairwise-exclusive truth has at most
one `true` entry. -/
theorem count_true_le_one (a b c d e f : Bool)
    (hab : ¬(a = true ∧ b = true)) (hac : ¬(a = true ∧ c = true))
    (had : ¬(a = true ∧ d = true)) (hae : ¬(a = true ∧ e = true))
    (haf : ¬(a = true ∧ f = true)) (hbc : ¬(b = true ∧ c = true))
    (hbd : ¬(b = true ∧ d = true)) (hbe : ¬(b = true ∧ e = true))
    (hbf : ¬(b = true ∧ f = true)) (hcd : ¬(c = true ∧ d = true))
    (hce : ¬(c = true ∧ e = true)) (hcf : ¬(c = true ∧ f = true))
    (hde : ¬(d = true ∧ e = true)) (hdf : ¬(d = true ∧ f = true))
    (hef : ¬(e = true ∧ f = true)) :
    ([a, b, c, d, e, f].count true) ≤ 1 := by
  cases a <;> cases b <;> cases c <;> cases d <;> cases e <;> cases f <;>
    simp_all [List.count_cons]

/-- C9: the value encodings are injective across kinds: for every 64-bit
word at most one of `is_integer`, `is_ifloat`, `is_symbol`, `is_boolean`,
`is_null`, `is_pointer` holds, and the integer encoding `(i << 1) | 1`
never satisfies any of the non-integer predicates. -/
theorem C9_tag_injectivity (v : Nat) (hv : v < 2 ^ 64) :
    ([is_integer v, is_ifloat v, is_symbol v, is_boolean v, is_null v,
        is_pointer v].count true ≤ 1)
    ∧ ∀ i : Int,
        is_integer (VALUE_ENCODE_INTEGER i) = true
        ∧ is_ifloat (VALUE_ENCODE_INTEGER i) = false
        ∧ is_symbol (VALUE_ENCODE_INTEGER i) = false
        ∧ is_boolean (VALUE_ENCODE_INTEGER i) = false
        ∧ is_null (VALUE_ENCODE_INTEGER i) = false
        ∧ is_pointer (VALUE_ENCODE_INTEGER i) = false := by
  constructor
  · apply count_true_le_one <;>
      · rintro ⟨h1, h2⟩
        simp only [is_integer_iff, is_ifloat_iff, is_symbol_iff, is_boolean_iff,
          is_null_iff, is_pointer_iff] at h1 h2
        omega
  · intro i
    have hodd : VALUE_ENCODE_INTEGER i % 2 = 1 := by
      rw [encode_eq]
      omega
    refine ⟨?_, ?_, ?_, ?_, ?_, ?_⟩
    · rw [is_integer_iff]
      exact hodd
    · rw [Bool.eq_false_iff, Ne, is_ifloat_iff]
      omega
    · rw [Bool.eq_false_iff, Ne, is_symbol_iff]
      omega
    · rw [Bool.eq_false_iff, Ne, is_boolean_iff]
      omega
    · rw [Bool.eq_false_iff, Ne, is_null_iff]
      omega
    · rw [Bool.eq_false_iff, Ne, is_pointer_iff]
      omega

/-- Witness for C9 at the concrete word 0. -/
theorem C9_tag_injectivity_witness :
    (0 : Nat) < 2 ^ 64
    ∧ ([is_integer 0, is_ifloat 0, is_symbol 0, is_boolean 0, is_null 0,
          is_pointer 0].count true ≤ 1) := by
  refine ⟨by norm_num, ?_⟩
  exact (C9_tag_injectivity 0 (by norm_num)).1

/-- C2: decoding the encoding of any integer in `[-2^62, 2^62)` gives the
integer back. -/
theorem C2_integer_roundtrip (i : Int) (h1 : -(2 ^ 62) ≤ i) (h2 : i < 2 ^ 62) :
    VALUE_DECODE_INTEGER (VALUE_ENCODE_INTEGER i) = i := by
  rw [VALUE_DECODE_INTEGER, Int.fdiv_eq_ediv _ (by norm_num), encode_eq]
  unfold toInt64
  split <;> omega

/-- Witness for C2 at the concrete integers 5 and -7. -/
theorem C2_integer_roundtrip_witness :
    (-(2 ^ 62) ≤ (5 : Int) ∧ (5 : Int) < 2 ^ 62
      ∧ VALUE_DECODE_INTEGER (VALUE_ENCODE_INTEGER 5) = 5)
    ∧ (-(2 ^ 62) ≤ (-7 : Int) ∧ (-7 : Int) < 2 ^ 62
      ∧ VALUE_DECODE_INTEGER (VALUE_ENCODE_INTEGER (-7)) = -7) :=
  ⟨⟨by norm_num, by norm_num, C2_integer_roundtrip 5 (by norm_num) (by norm_num)⟩,
   ⟨by norm_num, by norm_num, C2_integer_roundtrip (-7) (by norm_num) (by norm_num)⟩⟩

/-! ## Properties of the numeric helpers -/

/-- The false word is not numeric. -/
theorem is_numeric_zero (h : Heap) : is_numeric h 0 = false := rfl

/-- The null word is not numeric. -/
theorem is_numeric_eight (h : Heap) : is_numeric h 8 = false := rfl

/-- A numeric value is neither the false word nor the null word. -/
theorem is_numeric_not_false_null (h : Heap) (v : Nat)
    (hv : is_numeric h v = true) : is_false v = false ∧ is_null v = false := by
  constructor
  · rcases eq_or_ne v 0 with rfl | hne
    · rw [is_numeric_zero] at hv
      cases hv
    · simp [is_false, kFalse, hne]
  · rcases eq_or_ne v 8 with rfl | hne
    · rw [is_numeric_eight] at hv
      cases hv
    · simp [is_null, kNull, hne]

/-- The cell type tag of a payload is never the pseudo-type `kTypeNumeric`. -/
theorem typeOf_ne_kTypeNumeric (c : CellContent) : c.typeOf ≠ kTypeNumeric := by
  cases c <;> simp [CellContent.typeOf, kTypeDead, kTypeFloat, kTypeString,
    kTypeObject, kTypeArray, kTypeFunction, kTypeCFunction, kTypeClass,
    kTypeFrame, kTypeCatchTable, kTypeInstructionBlock, kTypeNumeric]

/-- The modelled `VM::type` reports `kTypeNumeric` exactly on the values
`is_numeric` accepts. -/
theorem VMtype_numeric_iff (h : Heap) (v : Nat) :
    VMtype h v = kTypeNumeric ↔ is_numeric h v = true := by
  unfold VMtype
  by_cases hn : is_numeric h v = true
  · simp [hn]
  · rw [Bool.not_eq_true] at hn
    rw [hn]
    simp only [Bool.false_eq_true, if_false]
    constructor
    · intro hcon
      exfalso
      revert hcon
      split_ifs with h1 h2 h3 h4
      · simp [kTypeBoolean, kTypeNumeric]
      · simp [kTypeNull, kTypeNumeric]
      · simp [kTypeSymbol, kTypeNumeric]
      · cases hlk : lookupCell h v with
        | none => simp [hlk, kTypeDead, kTypeNumeric]
        | some cell =>
          simp only [hlk]
          exact typeOf_ne_kTypeNumeric cell.content
      · simp [kTypeDead, kTypeNumeric]
    · intro hcon
      exact hcon.elim

/-- Looking up the cell just created by `create_float` yields the boxed
float. -/
theorem lookup_create_float (h : Heap) (d : CDouble) :
    lookupCell (create_float h d).2 (create_float h d).1
      = some ⟨false, .floatv d⟩ := by
  simp [create_float, lookupCell]

/-- C5: `Operators::truthyness v` is false exactly when `v` is the false
value, the null value, or a numeric value whose widened double equals
zero; every other value is truthy. -/
theorem C5_truthyness_falsy_iff (ifv : Nat → CDouble) (h : Heap) (v : Nat) :
    Operators.truthyness ifv h v = false ↔
      (is_false v = true ∨ is_null v = true
        ∨ (is_numeric h v = true ∧ (numeric_value ifv h v).isZero = true)) := by
  unfold Operators.truthyness
  by_cases hn : is_numeric h v = true
  · obtain ⟨hf, hnl⟩ := is_numeric_not_false_null h v hn
    simp [hn, hf, hnl]
  · rw [Bool.not_eq_true] at hn
    rw [hn]
    simp only [Bool.false_eq_true, if_false]
    split_ifs with h1 h2 <;> simp_all [is_null, is_false, kNull, kFalse]

/-- C3: `Operators::add` always returns a freshly created float value (it
never throws): its payload is the double sum of the two widened operands
when both operands are numeric, and NaN otherwise. -/
theorem C3_add_returns_float (ifv : Nat → CDouble) (h : Heap) (l r : Nat) :
    lookupCell (Operators.add ifv h l r).2 (Operators.add ifv h l r).1
      = some ⟨false,
          .floatv (if is_numeric h l = true ∧ is_numeric h r = true
            then CDouble.add (numeric_value ifv h l) (numeric_value ifv h r)
            else CDouble.nan)⟩ := by
  unfold Operators.add
  by_cases hb : is_numeric h l = true ∧ is_numeric h r = true
  · have hcond : (VMtype h l == kTypeNumeric && VMtype h r == kTypeNumeric) = true := by
      rw [Bool.and_eq_true]
      constructor
      · simp [(VMtype_numeric_iff h l).mpr hb.1]
      · simp [(VMtype_numeric_iff h r).mpr hb.2]
    rw [hcond]
    simp only [if_true]
    rw [if_pos hb]
    exact lookup_create_float h _
  · have hcond : (VMtype h l == kTypeNumeric && VMtype h r == kTypeNumeric) = false := by
      rw [Bool.and_eq_false_iff]
      by_cases hl : is_numeric h l = true
      · right
        rw [beq_eq_false_iff_ne, Ne, VMtype_numeric_iff]
        intro hr
        exact hb ⟨hl, hr⟩
      · left
        rw [beq_eq_false_iff_ne, Ne, VMtype_numeric_iff]
        exact hl
    rw [hcond]
    simp only [Bool.false_eq_true, if_false]
    rw [if_neg hb]
    exact lookup_create_float h _

/-- C4 as stated is false at the concrete program `put 2; put 3; add;
return`: the execution returns the heap pointer 16 to a freshly boxed
float cell carrying 5 — a float-typed value, not an integer-typed value. -/
theorem C4_counterexample :
    execInstrs ifv0 addTwoThreeProgram [] []
      = some (16, [(16, ⟨false, .floatv (.num 5)⟩)])
    ∧ is_integer 16 = false := by
  constructor
  · have step : execInstrs ifv0 addTwoThreeProgram [] []
        = some (16, [(16, ⟨false, .floatv (CDouble.add (.num 2) (.num 3))⟩)]) := rfl
    rw [step]
    norm_num [CDouble.add]
  · rfl

/-- C4 amended: adding the integer values 2 and 3 through the bytecode
program `put 2; put 3; add; return` yields a float value equal to 5 (the
`add` operator widens both operands to double and creates a float), not an
integer-typed value. -/
theorem C4_add_two_three_yields_float_five :
    ∃ p, execInstrs ifv0 addTwoThreeProgram [] [] = some p
      ∧ lookupCell p.2 p.1 = some ⟨false, .floatv (.num 5)⟩
      ∧ is_integer p.1 = false ∧ is_pointer p.1 = true := by
  refine ⟨(16, [(16, ⟨false, .floatv (.num 5)⟩)]), ?_, ?_, rfl, rfl⟩
  · have step : execInstrs ifv0 addTwoThreeProgram [] []
        = some (16, [(16, ⟨false, .floatv (CDouble.add (.num 2) (.num 3))⟩)]) := rfl
    rw [step]
    norm_num [CDouble.add]
  · simp [lookupCell]

/-! ## Basic properties of the heap operations -/

/-- Setting a mark does not change the addresses of the heap. -/
theorem setMark_map_fst (h : Heap) (a : Nat) (m : Bool) :
    (setMark h a m).map Prod.fst = h.map Prod.fst := by
  induction h with
  | nil => rfl
  | cons p t ih =>
    simp only [setMark, List.map_cons] at *
    by_cases hp : p.1 = a
    · simp [hp, ih]
    · simp [hp, ih]

/-- Unfolding `setMark` on a cons cell. -/
theorem setMark_cons (p : Nat × Cell) (t : Heap) (a : Nat) (m : Bool) :
    setMark (p :: t) a m
      = (if p.1 = a then (p.1, ⟨m, p.2.content⟩) else p) :: setMark t a m := rfl

/-- Looking up the address whose mark was set. -/
theorem lookupCell_setMark_self (h : Heap) (a : Nat) (m : Bool) :
    lookupCell (setMark h a m) a
      = (lookupCell h a).map fun c => ⟨m, c.content⟩ := by
  induction h with
  | nil => rfl
  | cons p t ih =>
    rw [setMark_cons]
    by_cases hp : p.1 = a
    · rw [if_pos hp]
      simp [lookupCell, hp]
    · rw [if_neg hp]
      simp [lookupCell, hp, ih]

/-- Looking up a different address after a mark was set. -/
theorem lookupCell_setMark_ne (h : Heap) (a b : Nat) (m : Bool) (hne : b ≠ a) :
    lookupCell (setMark h a m) b = lookupCell h b := by
  induction h with
  | nil => rfl
  | cons p t ih =>
    rw [setMark_cons]
    by_cases hp : p.1 = a
    · have hpb : ¬p.1 = b := by
        rw [hp]
        exact fun hc => hne hc.symm
      rw [if_pos hp]
      simp only [lookupCell]
      rw [if_neg hpb, if_neg hpb, ih]
    · rw [if_neg hp]
      by_cases hb : p.1 = b
      · simp [lookupCell, hb]
      · simp [lookupCell, hb, ih]

/-- A successful lookup means the address is in the heap's domain. -/
theorem lookupCell_mem_fst {h : Heap} {a : Nat} {c : Cell}
    (hl : lookupCell h a = some c) : a ∈ h.map Prod.fst := by
  induction h with
  | nil => cases hl
  | cons p t ih =>
    by_cases hp : p.1 = a
    · simp [hp]
    · simp only [lookupCell, hp, if_false] at hl
      simp [ih hl]

/-- An address in the heap's domain has a cell. -/
theorem lookupCell_isSome_of_mem {h : Heap} {a : Nat}
    (ha : a ∈ h.map Prod.fst) : ∃ c, lookupCell h a = some c := by
  induction h with
  | nil => cases ha
  | cons p t ih =>
    by_cases hp : p.1 = a
    · exact ⟨p.2, by simp [lookupCell, hp]⟩
    · simp only [List.map_cons, List.mem_cons] at ha
      rcases ha with ha | ha
      · exact absurd ha.symm hp
      · obtain ⟨c, hc⟩ := ih ha
        exact ⟨c, by simp [lookupCell, hp, hc]⟩

theorem markExtends_refl (h : Heap) : MarkExtends h h := by
  induction h with
  | nil => exact List.Forall₂.nil
  | cons p t ih => exact List.Forall₂.cons ⟨rfl, rfl, fun hm => hm⟩ ih

theorem markExtends_trans {h1 h2 h3 : Heap} (a : MarkExtends h1 h2)
    (b : MarkExtends h2 h3) : MarkExtends h1 h3 := by
  induction a generalizing h3 with
  | nil =>
    cases b
    exact List.Forall₂.nil
  | cons hpq t ih =>
    cases b with
    | cons hqr t' =>
      exact List.Forall₂.cons
        ⟨hqr.1.trans hpq.1, hqr.2.1.trans hpq.2.1,
          fun hm => hqr.2.2 (hpq.2.2 hm)⟩ (ih t')

theorem setMark_markExtends (h : Heap) (a : Nat) :
    MarkExtends h (setMark h a true) := by
  induction h with
  | nil => exact List.Forall₂.nil
  | cons p t ih =>
    by_cases hp : p.1 = a
    · exact List.Forall₂.cons (by simp [setMark, hp]) ih
    · exact List.Forall₂.cons (by simp [setMark, hp]) ih

/-- Mark extension preserves the domain. -/
theorem markExtends_map_fst {h h' : Heap} (he : MarkExtends h h') :
    h'.map Prod.fst = h.map Prod.fst := by
  induction he with
  | nil => rfl
  | cons hpq _ ih => simp [hpq.1, ih]

/-- Mark extension: lookups differ at most in the mark bit, monotonically. -/
theorem markExtends_lookup {h h' : Heap} (he : MarkExtends h h') (a : Nat) :
    (lookupCell h a = none ∧ lookupCell h' a = none)
    ∨ ∃ c c', lookupCell h a = some c ∧ lookupCell h' a = some c'
        ∧ c'.content = c.content ∧ (c.mark = true → c'.mark = true) := by
  induction he with
  | nil => exact Or.inl ⟨rfl, rfl⟩
  | @cons p q t t' hpq _ ih =>
    by_cases hp : p.1 = a
    · right
      refine ⟨p.2, q.2, by simp [lookupCell, hp], by simp [lookupCell, hpq.1, hp], hpq.2.1, hpq.2.2⟩
    · have hq : q.1 ≠ a := by rw [hpq.1]; exact hp
      rcases ih with ⟨h1, h2⟩ | ⟨c, c', h1, h2, h3, h4⟩
      · exact Or.inl ⟨by simp [lookupCell, hp, h1], by simp [lookupCell, hq, h2]⟩
      · exact Or.inr ⟨c, c', by simp [lookupCell, hp, h1], by simp [lookupCell, hq, h2], h3, h4⟩

/-- Mark extension preserves payloads pointwise. -/
theorem markExtends_lookup_content {h h' : Heap} (he : MarkExtends h h')
    (a : Nat) :
    (lookupCell h' a).map Cell.content = (lookupCell h a).map Cell.content := by
  rcases markExtends_lookup he a with ⟨h1, h2⟩ | ⟨c, c', h1, h2, h3, _⟩
  · rw [h1, h2]
  · rw [h1, h2]
    simp [h3]

/-- Marking can only shrink the number of unmarked cells. -/
theorem markExtends_unmarkedCount {h h' : Heap} (he : MarkExtends h h') :
    unmarkedCount h' ≤ unmarkedCount h := by
  induction he with
  | nil => exact Nat.le_refl 0
  | @cons p q t t' hpq _ ih =>
    simp only [unmarkedCount, List.filter]
    cases hq : q.2.mark
    · have hp : p.2.mark = false := by
        cases hpm : p.2.mark
        · rfl
        · rw [hpq.2.2 hpm] at hq
          cases hq
      simp only [hp, hq, Bool.not_false]
      exact Nat.succ_le_succ ih
    · cases hpm : p.2.mark
      · simp only [hpm, hq, Bool.not_false, Bool.not_true]
        exact Nat.le_trans ih (Nat.le_succ _)
      · simp only [hpm, hq, Bool.not_true]
        exact ih

/-- A fold of mark-extending steps mark-extends. -/
theorem foldl_markExtends {f : Heap → Nat → Heap}
    (hf : ∀ g v, MarkExtends g (f g v)) :
    ∀ (l : List Nat) (g : Heap), MarkExtends g (l.foldl f g) := by
  intro l
  induction l with
  | nil => intro g; exact markExtends_refl g
  | cons v rest ih =>
    intro g
    exact markExtends_trans (hf g v) (ih (f g v))

/-- `MemoryManager::mark` only turns mark bits on; addresses and payloads
are untouched. -/
theorem markFuel_markExtends : ∀ (fuel : Nat) (h : Heap) (v : Nat),
    MarkExtends h (markFuel fuel h v) := by
  intro fuel
  induction fuel with
  | zero =>
    intro h v
    exact markExtends_refl h
  | succ n ih =>
    intro h v
    simp only [markFuel]
    split
    · exact markExtends_refl h
    · split
      · exact markExtends_refl h
      · split
        · exact markExtends_refl h
        · exact markExtends_trans (setMark_markExtends h v)
            (foldl_markExtends (fun g w => ih g w) _ _)

/-- Counting unmarked cells on a cons heap. -/
theorem unmarkedCount_cons (p : Nat × Cell) (t : Heap) :
    unmarkedCount (p :: t)
      = (if p.2.mark then 0 else 1) + unmarkedCount t := by
  cases hm : p.2.mark
  · simp [unmarkedCount, List.filter_cons, hm]
    omega
  · simp [unmarkedCount, List.filter_cons, hm]

/-- A heap holding an unmarked cell has a positive unmarked count. -/
theorem unmarkedCount_pos {h : Heap} {a : Nat} {c : Cell}
    (hl : lookupCell h a = some c) (hm : c.mark = false) :
    0 < unmarkedCount h := by
  induction h with
  | nil => cases hl
  | cons p t ih =>
    rw [unmarkedCount_cons]
    by_cases hp : p.1 = a
    · simp only [lookupCell, hp, if_pos] at hl
      cases hl
      simp [hm]
    · simp only [lookupCell, hp, if_false] at hl
      have := ih hl
      omega

/-- Marking a cell that was unmarked strictly shrinks the unmarked count. -/
theorem unmarkedCount_setMark_lt {h : Heap} {a : Nat} {c : Cell}
    (hl : lookupCell h a = some c) (hm : c.mark = false) :
    unmarkedCount (setMark h a true) < unmarkedCount h := by
  induction h with
  | nil => cases hl
  | cons p t ih =>
    rw [setMark_cons, unmarkedCount_cons, unmarkedCount_cons]
    by_cases hp : p.1 = a
    · rw [if_pos hp]
      simp only [lookupCell, hp, if_pos] at hl
      cases hl
      have hle := markExtends_unmarkedCount (setMark_markExtends t a)
      simp [hm]
      omega
    · rw [if_neg hp]
      simp only [lookupCell, hp, if_false] at hl
      have := ih hl
      omega

/-- With any positive fuel, marking a pointer to an existing cell marks
that cell and keeps its payload. -/
theorem markFuel_marks_self (fuel : Nat) (h : Heap) (v : Nat) (c : Cell)
    (hp : is_pointer v = true) (hl : lookupCell h v = some c) :
    ∃ c', lookupCell (markFuel (fuel + 1) h v) v = some c'
      ∧ c'.mark = true ∧ c'.content = c.content := by
  simp only [markFuel, hp, Bool.not_true, Bool.false_eq_true, if_false, hl]
  by_cases hm : c.mark = true
  · rw [if_pos hm]
    exact ⟨c, hl, hm, rfl⟩
  · rw [if_neg hm]
    have hg0 : lookupCell (setMark h v true) v = some ⟨true, c.content⟩ := by
      rw [lookupCell_setMark_self, hl]
      rfl
    have hext := foldl_markExtends (fun g w => markFuel_markExtends fuel g w)
      c.content.gcReferences (setMark h v true)
    rcases markExtends_lookup hext v with ⟨h1, _⟩ | ⟨c1, c', h1, h2, h3, h4⟩
    · rw [hg0] at h1
      cases h1
    · rw [hg0] at h1
      cases h1
      exact ⟨c', h2, h4 rfl, h3⟩

/-- Fuel irrelevance of `markFuel` above the unmarked-cell bound, by
induction on that bound. -/
theorem markFuel_congr : ∀ (N : Nat) (h : Heap) (v : Nat) (f1 f2 : Nat),
    unmarkedCount h ≤ N → unmarkedCount h < f1 → unmarkedCount h < f2 →
    markFuel f1 h v = markFuel f2 h v := by
  intro N
  induction N with
  | zero =>
    intro h v f1 f2 hN h1 h2
    cases f1 with
    | zero => omega
    | succ a =>
      cases f2 with
      | zero => omega
      | succ b =>
        simp only [markFuel]
        split
        · rfl
        · split
          · rfl
          · rename_i cell hlk
            by_cases hm : cell.mark = true
            · rw [if_pos hm, if_pos hm]
            · rw [Bool.not_eq_true] at hm
              have := unmarkedCount_pos hlk hm
              omega
  | succ n ih =>
    intro h v f1 f2 hN h1 h2
    cases f1 with
    | zero => omega
    | succ a =>
      cases f2 with
      | zero => omega
      | succ b =>
        simp only [markFuel]
        split
        · rfl
        · split
          · rfl
          · rename_i cell hlk
            by_cases hm : cell.mark = true
            · rw [if_pos hm, if_pos hm]
            · rw [Bool.not_eq_true] at hm
              rw [if_neg (by simp [hm]), if_neg (by simp [hm])]
              have hlt := unmarkedCount_setMark_lt hlk hm
              have key : ∀ (l : List Nat) (g : Heap), unmarkedCount g ≤ n →
                  unmarkedCount g < a → unmarkedCount g < b →
                  l.foldl (fun hh w => markFuel a hh w) g
                    = l.foldl (fun hh w => markFuel b hh w) g := by
                intro l
                induction l with
                | nil =>
                  intro g _ _ _
                  rfl
                | cons w rest ihl =>
                  intro g hg1 hg2 hg3
                  simp only [List.foldl_cons]
                  rw [ih g w a b hg1 hg2 hg3]
                  have hmono :=
                    markExtends_unmarkedCount (markFuel_markExtends b g w)
                  exact ihl _ (le_trans hmono hg1)
                    (lt_of_le_of_lt (le_trans hmono (le_refl _)) hg2)
                    (lt_of_le_of_lt (le_trans hmono (le_refl _)) hg3)
              apply key
              · omega
              · omega
              · omega

/-- Unfolding of `mark` as `markFuel` with its sufficient fuel. -/
theorem mark_eq (h : Heap) (v : Nat) :
    mark h v = markFuel (unmarkedCount h + 1) h v := rfl

/-- C10: the recursion of `MemoryManager::mark` is bounded on every heap
object graph, cyclic graphs included: because the procedure returns
immediately on non-pointer values and already-marked cells, and marks a
cell before visiting its references, each reachable cell is traversed at
most once, so any two depth bounds above the number of unmarked cells give
the same result — the result `mark` computes. -/
theorem C10_mark_terminates (h : Heap) (v : Nat) (f1 f2 : Nat)
    (h1 : unmarkedCount h < f1) (h2 : unmarkedCount h < f2) :
    markFuel f1 h v = markFuel f2 h v ∧ markFuel f1 h v = mark h v :=
  ⟨markFuel_congr (unmarkedCount h) h v f1 f2 (le_refl _) h1 h2,
   markFuel_congr (unmarkedCount h) h v f1 (unmarkedCount h + 1) (le_refl _)
     h1 (by omega)⟩

/-- Witness for C10 on the concrete cyclic frame-function heap. -/
theorem C10_mark_terminates_witness :
    (unmarkedCount cyclicHeap < 3 ∧ unmarkedCount cyclicHeap < 5)
    ∧ markFuel 3 cyclicHeap 16 = markFuel 5 cyclicHeap 16
    ∧ markFuel 3 cyclicHeap 16 = mark cyclicHeap 16 :=
  ⟨⟨by decide, by decide⟩,
   C10_mark_terminates cyclicHeap 16 3 5 (by decide) (by decide)⟩

/-- An all-unmarked heap is closed for any pending list. -/
theorem closedExcept_of_unmarked (h : Heap) (pend : List Nat)
    (hu : ∀ a c, lookupCell h a = some c → c.mark = false) :
    ClosedExcept h pend := by
  intro a c hl hm
  rw [hu a c hl] at hm
  cases hm

/-- Weakening of the pending list. -/
theorem closedExcept_mono {h : Heap} {P Q : List Nat}
    (hs : ∀ x, x ∈ P → x ∈ Q) (hc : ClosedExcept h P) : ClosedExcept h Q := by
  intro a c hl hm b hb hpb cb hcb
  rcases hc a c hl hm b hb hpb cb hcb with h1 | h1
  · exact Or.inl h1
  · exact Or.inr (hs b h1)

/-- Dropping a pending value that needs no work: it is either already
marked, or is not a pointer to a cell. -/
theorem closedExcept_drop {h : Heap} {v : Nat} {P : List Nat}
    (hv : is_pointer v = true →
      ∀ cv, lookupCell h v = some cv → cv.mark = true)
    (hc : ClosedExcept h (v :: P)) : ClosedExcept h P := by
  intro a c hl hm b hb hpb cb hcb
  rcases hc a c hl hm b hb hpb cb hcb with h1 | h1
  · exact Or.inl h1
  · rcases List.mem_cons.mp h1 with rfl | h2
    · exact Or.inl (hv hpb cb hcb)
    · exact Or.inr h2

/-- The depth-first call discharges its pending value: a heap closed except
for `v :: P` is, after `markFuel` on `v` with sufficient fuel, closed
except for `P`. -/
theorem markFuel_closedExcept :
    ∀ (N fuel : Nat) (h : Heap) (v : Nat) (P : List Nat),
    unmarkedCount h ≤ N → N < fuel → ClosedExcept h (v :: P) →
    ClosedExcept (markFuel fuel h v) P := by
  intro N
  induction N with
  | zero =>
    intro fuel h v P hN hf hc
    cases fuel with
    | zero => omega
    | succ f =>
      simp only [markFuel]
      split
      · rename_i hnp
        rw [Bool.not_eq_eq_eq_not, Bool.not_true] at hnp
        exact closedExcept_drop (fun hpt => absurd hpt (by rw [hnp]; simp)) hc
      · split
        · rename_i hlk
          exact closedExcept_drop
            (fun _ cv hcv => by rw [hlk] at hcv; cases hcv) hc
        · rename_i cell hlk
          split
          · rename_i hm
            exact closedExcept_drop
              (fun _ cv hcv => by rw [hlk] at hcv; cases hcv; exact hm) hc
          · rename_i hm
            rw [Bool.not_eq_true] at hm
            have := unmarkedCount_pos hlk hm
            omega
  | succ n ih =>
    intro fuel h v P hN hf hc
    cases fuel with
    | zero => omega
    | succ f =>
      simp only [markFuel]
      split
      · rename_i hnp
        rw [Bool.not_eq_eq_eq_not, Bool.not_true] at hnp
        exact closedExcept_drop (fun hpt => absurd hpt (by rw [hnp]; simp)) hc
      · split
        · rename_i hlk
          exact closedExcept_drop
            (fun _ cv hcv => by rw [hlk] at hcv; cases hcv) hc
        · rename_i cell hlk
          split
          · rename_i hm
            exact closedExcept_drop
              (fun _ cv hcv => by rw [hlk] at hcv; cases hcv; exact hm) hc
          · rename_i hm
            rw [Bool.not_eq_true] at hm
            have hclosed1 : ClosedExcept (setMark h v true)
                (cell.content.gcReferences ++ P) := by
              intro a c hl hmk b hb hpb cb hcb
              by_cases hav : a = v
              · subst hav
                rw [lookupCell_setMark_self, hlk] at hl
                cases hl
                exact Or.inr (List.mem_append_left P hb)
              · rw [lookupCell_setMark_ne h v a true hav] at hl
                by_cases hbv : b = v
                · subst hbv
                  rw [lookupCell_setMark_self, hlk] at hcb
                  cases hcb
                  exact Or.inl rfl
                · rw [lookupCell_setMark_ne h v b true hbv] at hcb
                  rcases hc a c hl hmk b hb hpb cb hcb with h1 | h1
                  · exact Or.inl h1
                  · rcases List.mem_cons.mp h1 with rfl | h2
                    · exact absurd rfl hbv
                    · exact Or.inr (List.mem_append_right _ h2)
            have hfold : ∀ (l : List Nat) (g : Heap) (Q : List Nat),
                unmarkedCount g ≤ n → ClosedExcept g (l ++ Q) →
                ClosedExcept (l.foldl (fun hh w => markFuel f hh w) g) Q := by
              intro l
              induction l with
              | nil =>
                intro g Q _ hcg
                exact hcg
              | cons w rest ihl =>
                intro g Q hg hcg
                simp only [List.foldl_cons]
                apply ihl
                · exact le_trans
                    (markExtends_unmarkedCount (markFuel_markExtends f g w)) hg
                · exact ih f g w (rest ++ Q) hg (by omega) hcg
            apply hfold
            · have := unmarkedCount_setMark_lt hlk hm
              omega
            · exact hclosed1

theorem reaches_trans {h : Heap} {x y z : Nat} (h1 : Reaches h x y)
    (h2 : Reaches h y z) : Reaches h x z := by
  induction h2 with
  | refl => exact h1
  | step hr hp c hc hb ih => exact Reaches.step ih hp c hc hb

/-- Reachability only depends on the payloads, not on the mark bits. -/
theorem reaches_of_contentEq {h g : Heap}
    (hce : ∀ b, (lookupCell g b).map Cell.content
      = (lookupCell h b).map Cell.content)
    {v a : Nat} (hr : Reaches h v a) : Reaches g v a := by
  induction hr with
  | refl => exact Reaches.refl
  | @step x b hrx hp c hc hb ih =>
    have hx := hce x
    rw [hc] at hx
    rcases Option.map_eq_some'.mp hx with ⟨cg, hcg, hcgc⟩
    exact Reaches.step ih hp cg hcg (by rw [hcgc]; exact hb)

/-- In a closed heap, everything reachable from a marked root is marked. -/
theorem closed_reaches_marked {h : Heap} (hcl : ClosedExcept h [])
    {r a : Nat} (hra : Reaches h r a)
    (hroot : is_pointer r = true →
      ∀ cr, lookupCell h r = some cr → cr.mark = true) :
    is_pointer a = true → ∀ ca, lookupCell h a = some ca → ca.mark = true := by
  induction hra with
  | refl => exact hroot
  | @step x b hrx hp c hc hb ih =>
    intro hpb cb hcb
    rcases hcl x c hc (ih hp c hc) b hb hpb cb hcb with h1 | h1
    · exact h1
    · cases h1

/-! ## Soundness of the mark phase: only reachable cells get marked -/

/-- Every cell marked by `markFuel` was already marked or is reachable from
the marked value. -/
theorem markFuel_sound : ∀ (fuel : Nat) (h : Heap) (v a : Nat) (ca : Cell),
    lookupCell (markFuel fuel h v) a = some ca → ca.mark = true →
    (∃ c, lookupCell h a = some c ∧ c.mark = true) ∨ Reaches h v a := by
  intro fuel
  induction fuel with
  | zero =>
    intro h v a ca hl hm
    exact Or.inl ⟨ca, hl, hm⟩
  | succ f ih =>
    intro h v a ca hl hm
    revert hl
    simp only [markFuel]
    split
    · intro hl
      exact Or.inl ⟨ca, hl, hm⟩
    · rename_i hnp
      have hpv : is_pointer v = true := by
        simpa using hnp
      split
      · intro hl
        exact Or.inl ⟨ca, hl, hm⟩
      · rename_i cell hlk
        split
        · intro hl
          exact Or.inl ⟨ca, hl, hm⟩
        · rename_i hmk
          intro hl
          have hfold : ∀ (l : List Nat) (g : Heap),
              (∀ x, x ∈ l → Reaches h v x) →
              (∀ b, (lookupCell g b).map Cell.content
                = (lookupCell h b).map Cell.content) →
              ∀ ca', lookupCell
                  (l.foldl (fun hh w => markFuel f hh w) g) a = some ca' →
                ca'.mark = true →
              (∃ c, lookupCell g a = some c ∧ c.mark = true)
              ∨ Reaches h v a := by
            intro l
            induction l with
            | nil =>
              intro g _ _ ca' hl' hm'
              exact Or.inl ⟨ca', hl', hm'⟩
            | cons w rest ihl =>
              intro g hx hce ca' hl' hm'
              simp only [List.foldl_cons] at hl'
              have hce' : ∀ b, (lookupCell (markFuel f g w) b).map Cell.content
                  = (lookupCell h b).map Cell.content := by
                intro b
                rw [markExtends_lookup_content (markFuel_markExtends f g w) b]
                exact hce b
              rcases ihl (markFuel f g w)
                  (fun x hxr => hx x (List.mem_cons_of_mem w hxr))
                  hce' ca' hl' hm' with hg' | hre
              · obtain ⟨c1, hc1, hm1⟩ := hg'
                rcases ih g w a c1 hc1 hm1 with hg | hr
                · exact Or.inl hg
                · have hra : Reaches h w a := by
                    refine reaches_of_contentEq (fun b => ?_) hr
                    rw [hce b]
                  exact Or.inr (reaches_trans (hx w (List.mem_cons_self w rest)) hra)
              · exact Or.inr hre
          have hres := hfold cell.content.gcReferences (setMark h v true)
            (fun x hx => Reaches.step Reaches.refl hpv cell hlk hx)
            (fun b => markExtends_lookup_content (setMark_markExtends h v) b)
            ca hl hm
          rcases hres with ⟨c1, hc1, hm1⟩ | hre
          · by_cases hav : a = v
            · subst hav
              exact Or.inr Reaches.refl
            · rw [lookupCell_setMark_ne h v a true hav] at hc1
              exact Or.inl ⟨c1, hc1, hm1⟩
          · exact Or.inr hre

/-! ## The mark phase over a list of roots -/

/-- The mark phase only turns marks on. -/
theorem foldl_mark_markExtends (roots : List Nat) (h : Heap) :
    MarkExtends h (roots.foldl mark h) :=
  foldl_markExtends (fun g v => markFuel_markExtends (unmarkedCount g + 1) g v)
    roots h

/-- After marking all roots of a closed heap, the heap is fully closed. -/
theorem foldl_mark_closed (roots : List Nat) (h : Heap)
    (hc : ClosedExcept h roots) : ClosedExcept (roots.foldl mark h) [] := by
  induction roots generalizing h with
  | nil => exact hc
  | cons r rest ihr =>
    simp only [List.foldl_cons]
    apply ihr
    exact markFuel_closedExcept (unmarkedCount h) (unmarkedCount h + 1) h r
      rest (le_refl _) (by omega) hc

/-- Every root that is a pointer to a cell ends up marked. -/
theorem foldl_mark_marks_roots (roots : List Nat) (h : Heap) (r : Nat)
    (hr : r ∈ roots) (hp : is_pointer r = true) (c : Cell)
    (hc : lookupCell h r = some c) :
    ∀ c', lookupCell (roots.foldl mark h) r = some c' → c'.mark = true := by
  induction roots generalizing h c with
  | nil => cases hr
  | cons x rest ihr =>
    intro c' hc'
    simp only [List.foldl_cons] at hc'
    rcases List.mem_cons.mp hr with rfl | hmem
    · obtain ⟨c1, hl1, hm1, _⟩ :=
        markFuel_marks_self (unmarkedCount h) h r c hp hc
      rw [← mark_eq] at hl1
      have hext := foldl_mark_markExtends rest (mark h r)
      rcases markExtends_lookup hext r with ⟨ha, _⟩ | ⟨d, d', hd, hd', _, hdm⟩
      · rw [ha] at hl1
        cases hl1
      · rw [hd] at hl1
        cases hl1
        rw [hd'] at hc'
        cases hc'
        exact hdm hm1
    · rcases markExtends_lookup
          (markFuel_markExtends (unmarkedCount h + 1) h x) r with
        ⟨ha, _⟩ | ⟨d, d', hd, hd', _, _⟩
      · rw [hc] at ha
        cases ha
      · rw [hc] at hd
        cases hd
        exact ihr (mark h x) hmem d' hd' c' hc'

/-- Every cell marked by the mark phase was marked before or is reachable
from one of the roots. -/
theorem foldl_mark_sound (roots : List Nat) (h : Heap) (a : Nat) (ca : Cell)
    (hl : lookupCell (roots.foldl mark h) a = some ca) (hm : ca.mark = true) :
    (∃ c, lookupCell h a = some c ∧ c.mark = true)
    ∨ ∃ r, r ∈ roots ∧ Reaches h r a := by
  induction roots generalizing h with
  | nil => exact Or.inl ⟨ca, hl, hm⟩
  | cons x rest ihr =>
    simp only [List.foldl_cons] at hl
    rcases ihr (mark h x) hl with ⟨c1, hc1, hm1⟩ | ⟨r, hrm, hre⟩
    · rcases markFuel_sound (unmarkedCount h + 1) h x a c1 hc1 hm1 with hg | hr
      · exact Or.inl hg
      · exact Or.inr ⟨x, List.mem_cons_self x rest, hr⟩
    · refine Or.inr ⟨r, List.mem_cons_of_mem x hrm, ?_⟩
      refine reaches_of_contentEq (fun b => ?_) hre
      exact (markExtends_lookup_content
        (markFuel_markExtends (unmarkedCount h + 1) h x) b).symm

/-- Completeness of the mark phase from an all-unmarked heap: every value
reachable from a root that is a pointer to a cell ends up marked. -/
theorem foldl_mark_complete (roots : List Nat) (h : Heap)
    (hu : ∀ a c, lookupCell h a = some c → c.mark = false)
    (r : Nat) (hr : r ∈ roots) (a : Nat) (hra : Reaches h r a)
    (hpa : is_pointer a = true) :
    ∀ ca, lookupCell (roots.foldl mark h) a = some ca → ca.mark = true := by
  have hclosed := foldl_mark_closed roots h
    (closedExcept_of_unmarked h roots hu)
  have hce : ∀ b, (lookupCell (roots.foldl mark h) b).map Cell.content
      = (lookupCell h b).map Cell.content :=
    fun b => markExtends_lookup_content (foldl_mark_markExtends roots h) b
  have hra' : Reaches (roots.foldl mark h) r a :=
    reaches_of_contentEq hce hra
  refine closed_reaches_marked hclosed hra' ?_ hpa
  intro hpr cr hcr
  have hcr0 : ∃ c0, lookupCell h r = some c0 := by
    rcases markExtends_lookup (foldl_mark_markExtends roots h) r with
      ⟨ha, hb⟩ | ⟨d, _, hd, _, _, _⟩
    · rw [hb] at hcr
      cases hcr
    · exact ⟨d, hd⟩
  obtain ⟨c0, hc0⟩ := hcr0
  exact foldl_mark_marks_roots roots h r hr hpr c0 hc0 cr hcr

theorem updateAt_map_fst (h : Heap) (a : Nat) (nc : Cell) :
    (updateAt h a nc).map Prod.fst = h.map Prod.fst := by
  induction h with
  | nil => rfl
  | cons p t ih =>
    simp only [updateAt, List.map_cons] at *
    by_cases hp : p.1 = a
    · simp [hp, ih]
    · simp [hp, ih]

theorem lookupCell_updateAt_self (h : Heap) (a : Nat) (nc : Cell) :
    lookupCell (updateAt h a nc) a = (lookupCell h a).map fun _ => nc := by
  induction h with
  | nil => rfl
  | cons p t ih =>
    show lookupCell ((if p.1 = a then (p.1, nc) else p) :: updateAt t a nc) a = _
    by_cases hp : p.1 = a
    · rw [if_pos hp]
      simp [lookupCell, hp]
    · rw [if_neg hp]
      simp [lookupCell, hp, ih]

theorem lookupCell_updateAt_ne (h : Heap) (a b : Nat) (nc : Cell)
    (hne : b ≠ a) : lookupCell (updateAt h a nc) b = lookupCell h b := by
  induction h with
  | nil => rfl
  | cons p t ih =>
    show lookupCell ((if p.1 = a then (p.1, nc) else p) :: updateAt t a nc) b = _
    by_cases hp : p.1 = a
    · have hpb : ¬p.1 = b := by
        rw [hp]
        exact fun hc => hne hc.symm
      rw [if_pos hp]
      simp only [lookupCell]
      rw [if_neg hpb, if_neg hpb, ih]
    · rw [if_neg hp]
      by_cases hb : p.1 = b
      · simp [lookupCell, hb]
      · simp [lookupCell, hb, ih]

/-- `MemoryManager::free` leaves the temporaries aside: the cells change by
overwriting the freed address with a dead cell pointing at the old
free-list head. -/
theorem free_cells_eq (mm : MemoryManager) (a : Nat) :
    (mm.free a).cells = updateAt mm.cells a ⟨false, .dead mm.free_cell⟩ := by
  unfold MemoryManager.free MemoryManager.unregister_temporary updateAt
  split <;> rfl

theorem free_free_cell (mm : MemoryManager) (a : Nat) :
    (mm.free a).free_cell = some a := by
  unfold MemoryManager.free MemoryManager.unregister_temporary
  split <;> rfl

theorem free_heap_count (mm : MemoryManager) (a : Nat) :
    (mm.free a).heap_count = mm.heap_count := by
  unfold MemoryManager.free MemoryManager.unregister_temporary
  split <;> rfl

/-- Sweep does not change the set of addresses. -/
theorem sweep_map_fst : ∀ (addrs : List Nat) (mm : MemoryManager),
    (sweep addrs mm).1.cells.map Prod.fst = mm.cells.map Prod.fst := by
  intro addrs
  induction addrs with
  | nil => intro mm; rfl
  | cons b rest ih =>
    intro mm
    simp only [sweep]
    split
    · exact ih mm
    · rename_i cell hlk
      split
      · rw [ih]
        exact setMark_map_fst mm.cells b false
      · split
        · exact ih mm
        · show (sweep rest (mm.free b)).1.cells.map Prod.fst = _
          rw [ih, free_cells_eq]
          exact updateAt_map_fst mm.cells b _

/-- Sweep preserves the region count. -/
theorem sweep_heap_count : ∀ (addrs : List Nat) (mm : MemoryManager),
    (sweep addrs mm).1.heap_count = mm.heap_count := by
  intro addrs
  induction addrs with
  | nil => intro mm; rfl
  | cons b rest ih =>
    intro mm
    simp only [sweep]
    split
    · exact ih mm
    · split
      · exact ih _
      · split
        · exact ih mm
        · show (sweep rest (mm.free b)).1.heap_count = _
          rw [ih, free_heap_count]

/-- Sweep leaves unprocessed addresses untouched. -/
theorem sweep_lookup_not_mem : ∀ (addrs : List Nat) (mm : MemoryManager)
    (a : Nat), a ∉ addrs →
    lookupCell (sweep addrs mm).1.cells a = lookupCell mm.cells a := by
  intro addrs
  induction addrs with
  | nil => intro mm a _; rfl
  | cons b rest ih =>
    intro mm a ha
    have hab : a ≠ b := fun hc => ha (hc ▸ List.mem_cons_self b rest)
    have har : a ∉ rest := fun hc => ha (List.mem_cons_of_mem b hc)
    simp only [sweep]
    split
    · exact ih mm a har
    · rename_i cell hlk
      split
      · rw [ih _ a har]
        exact lookupCell_setMark_ne mm.cells b a false hab
      · split
        · exact ih mm a har
        · show lookupCell (sweep rest (mm.free b)).1.cells a = _
          rw [ih _ a har, free_cells_eq]
          exact lookupCell_updateAt_ne mm.cells b a _ hab

/-- What sweep does to each processed cell: marked cells keep their payload
with the mark cleared, dead cells are skipped, all other unmarked cells are
freed into dead cells. -/
theorem sweep_lookup_mem : ∀ (addrs : List Nat) (mm : MemoryManager)
    (a : Nat) (c : Cell), addrs.Nodup → a ∈ addrs →
    lookupCell mm.cells a = some c →
    (c.mark = true →
      lookupCell (sweep addrs mm).1.cells a = some ⟨false, c.content⟩)
    ∧ (c.mark = false → c.content.typeOf = kTypeDead →
      lookupCell (sweep addrs mm).1.cells a = some c)
    ∧ (c.mark = false → c.content.typeOf ≠ kTypeDead →
      ∃ nx, lookupCell (sweep addrs mm).1.cells a = some ⟨false, .dead nx⟩) := by
  intro addrs
  induction addrs with
  | nil =>
    intro mm a c _ ha
    cases ha
  | cons b rest ih =>
    intro mm a c hnd ha hl
    by_cases hab : a = b
    · subst hab
      have har : a ∉ rest := (List.nodup_cons.mp hnd).1
      simp only [sweep, hl]
      refine ⟨?_, ?_, ?_⟩
      · intro hm
        rw [if_pos hm, sweep_lookup_not_mem rest _ a har,
          lookupCell_setMark_self, hl]
        rfl
      · intro hm hd
        rw [if_neg (by rw [hm]; exact Bool.false_ne_true), if_pos hd,
          sweep_lookup_not_mem rest _ a har]
        exact hl
      · intro hm hd
        rw [if_neg (by rw [hm]; exact Bool.false_ne_true), if_neg hd]
        refine ⟨mm.free_cell, ?_⟩
        show lookupCell (sweep rest (mm.free a)).1.cells a = _
        rw [sweep_lookup_not_mem rest _ a har, free_cells_eq,
          lookupCell_updateAt_self, hl]
        rfl
    · have har : a ∈ rest := by
        rcases List.mem_cons.mp ha with rfl | hr
        · exact absurd rfl hab
        · exact hr
      have hnd' : rest.Nodup := (List.nodup_cons.mp hnd).2
      simp only [sweep]
      split
      · exact ih mm a c hnd' har hl
      · rename_i cell hlk
        split
        · refine ih _ a c hnd' har ?_
          rw [lookupCell_setMark_ne mm.cells b a false (fun hc => hab hc)]
          exact hl
        · split
          · exact ih mm a c hnd' har hl
          · show (c.mark = true → lookupCell (sweep rest (mm.free b)).1.cells a
                = some ⟨false, c.content⟩) ∧ _
            refine ih _ a c hnd' har ?_
            rw [free_cells_eq,
              lookupCell_updateAt_ne mm.cells b a _ (fun hc => hab hc)]
            exact hl

/-- The cell type tag is `kTypeDead` exactly for dead payloads. -/
theorem typeOf_eq_dead_iff (c : CellContent) :
    c.typeOf = kTypeDead ↔ ∃ nx, c = .dead nx := by
  cases c <;>
    simp [CellContent.typeOf, kTypeDead, kTypeFloat, kTypeString, kTypeObject,
      kTypeArray, kTypeFunction, kTypeCFunction, kTypeClass, kTypeFrame,
      kTypeCatchTable, kTypeInstructionBlock]

/-- A successful lookup yields a binding of the heap list. -/
theorem lookupCell_mem {h : Heap} {a : Nat} {c : Cell}
    (hl : lookupCell h a = some c) : (a, c) ∈ h := by
  induction h with
  | nil => cases hl
  | cons p t ih =>
    by_cases hp : p.1 = a
    · simp only [lookupCell, hp, if_pos] at hl
      cases hl
      rw [← hp]
      exact List.mem_cons_self p t
    · simp only [lookupCell, hp, if_false] at hl
      exact List.mem_cons_of_mem p (ih hl)

/-- After a sweep that covers every address, no cell is marked. -/
theorem sweep_all_unmarked (addrs : List Nat) (mm : MemoryManager)
    (hnd : addrs.Nodup)
    (hcov : ∀ x, x ∈ mm.cells.map Prod.fst → x ∈ addrs) :
    ∀ a ca, lookupCell (sweep addrs mm).1.cells a = some ca →
      ca.mark = false := by
  intro a ca hl
  have hdom : a ∈ mm.cells.map Prod.fst := by
    have := lookupCell_mem_fst hl
    rw [sweep_map_fst] at this
    exact this
  obtain ⟨c, hc⟩ := lookupCell_isSome_of_mem hdom
  obtain ⟨h1, h2, h3⟩ := sweep_lookup_mem addrs mm a c hnd (hcov a hdom) hc
  cases hmk : c.mark
  · by_cases hd : c.content.typeOf = kTypeDead
    · rw [h2 hmk hd] at hl
      cases hl
      exact hmk
    · obtain ⟨nx, hnx⟩ := h3 hmk hd
      rw [hnx] at hl
      cases hl
      rfl
  · rw [h1 hmk] at hl
    cases hl
    rfl

/-- Nothing is on an empty free list. -/
theorem freeReach_none (cells : Heap) (a : Nat) :
    ¬ FreeReach cells none a := by
  intro h
  induction h with
  | head a ha => cases ha
  | step hb hc ih => exact ih

/-- Free-list membership only depends on payloads. -/
theorem freeReach_of_contentEq {cells cells' : Heap} {hd : Option Nat}
    (hce : ∀ b, (lookupCell cells' b).map Cell.content
      = (lookupCell cells b).map Cell.content)
    {a : Nat} (hr : FreeReach cells hd a) : FreeReach cells' hd a := by
  induction hr with
  | head a ha => exact FreeReach.head a ha
  | @step b a m hb hc ih =>
    have hx := hce b
    rw [hc] at hx
    rcases Option.map_eq_some'.mp hx with ⟨cg, hcg, hcgc⟩
    obtain ⟨cm, cc⟩ := cg
    simp only [Cell.content] at hcgc
    subst hcgc
    exact FreeReach.step ih hcg

/-- Setting a mark bit never changes payloads. -/
theorem setMark_lookup_content (h : Heap) (a : Nat) (m : Bool) (x : Nat) :
    (lookupCell (setMark h a m) x).map Cell.content
      = (lookupCell h x).map Cell.content := by
  by_cases hx : x = a
  · subst hx
    rw [lookupCell_setMark_self]
    cases lookupCell h x <;> rfl
  · rw [lookupCell_setMark_ne h a x m hx]

/-- `FreeListDead` is stable under changing only mark bits or payload-equal
rewrites. -/
theorem freeListDead_of_contentEq {cells cells' : Heap} {hd : Option Nat}
    (hce : ∀ b, (lookupCell cells' b).map Cell.content
      = (lookupCell cells b).map Cell.content)
    (hf : FreeListDead cells hd) : FreeListDead cells' hd := by
  intro a hra
  have hra' : FreeReach cells hd a :=
    freeReach_of_contentEq (fun b => (hce b).symm) hra
  obtain ⟨m, nx, hm⟩ := hf a hra'
  have hx := hce a
  rw [hm] at hx
  rcases Option.map_eq_some'.mp hx with ⟨cg, hcg, hcgc⟩
  cases cg
  simp only [Cell.content] at hcgc
  exact ⟨_, nx, by rw [hcg, hcgc]⟩

/-- Freeing a non-dead cell extends a dead free list by that cell. -/
theorem freeListDead_free (mm : MemoryManager) (b : Nat) (cell : Cell)
    (hlk : lookupCell mm.cells b = some cell)
    (hd : cell.content.typeOf ≠ kTypeDead)
    (hf : FreeListDead mm.cells mm.free_cell) :
    FreeListDead (mm.free b).cells (mm.free b).free_cell := by
  have hnotdead : ∀ m nx, lookupCell mm.cells b ≠ some ⟨m, .dead nx⟩ := by
    intro m nx hc
    rw [hlk] at hc
    cases hc
    exact hd ((typeOf_eq_dead_iff _).mpr ⟨nx, rfl⟩)
  have hsplit : ∀ a, FreeReach (mm.free b).cells (mm.free b).free_cell a →
      a = b ∨ FreeReach mm.cells mm.free_cell a := by
    intro a hra
    induction hra with
    | head a ha =>
      rw [free_free_cell] at ha
      cases ha
      exact Or.inl rfl
    | @step x a m hb hc ih =>
      rcases ih with rfl | hx
      · rw [free_cells_eq, lookupCell_updateAt_self, hlk] at hc
        simp only [Option.map_some'] at hc
        have hfc : mm.free_cell = some a := by
          have := congrArg Cell.content (Option.some.inj hc)
          simp only [Cell.content] at this
          exact CellContent.dead.inj this
        exact Or.inr (FreeReach.head a hfc)
      · obtain ⟨m0, nx0, hm0⟩ := hf x hx
        have hxb : x ≠ b := by
          intro hc2
          exact hnotdead m0 nx0 (hc2 ▸ hm0)
        rw [free_cells_eq, lookupCell_updateAt_ne mm.cells b x _ hxb] at hc
        exact Or.inr (FreeReach.step hx hc)
  intro a hra
  rcases hsplit a hra with rfl | hx
  · rw [free_cells_eq, lookupCell_updateAt_self, hlk]
    exact ⟨false, mm.free_cell, rfl⟩
  · obtain ⟨m0, nx0, hm0⟩ := hf a hx
    have hab : a ≠ b := by
      intro hc2
      exact hnotdead m0 nx0 (hc2 ▸ hm0)
    rw [free_cells_eq, lookupCell_updateAt_ne mm.cells b a _ hab]
    exact ⟨m0, nx0, hm0⟩

/-- Sweep keeps the free list dead. -/
theorem sweep_freeListDead : ∀ (addrs : List Nat) (mm : MemoryManager),
    FreeListDead mm.cells mm.free_cell →
    FreeListDead (sweep addrs mm).1.cells (sweep addrs mm).1.free_cell := by
  intro addrs
  induction addrs with
  | nil =>
    intro mm hf
    exact hf
  | cons b rest ih =>
    intro mm hf
    simp only [sweep]
    split
    · exact ih mm hf
    · rename_i cell hlk
      split
      · refine ih _ ?_
        exact freeListDead_of_contentEq
          (fun x => setMark_lookup_content mm.cells b false x) hf
      · split
        · exact ih mm hf
        · rename_i hmk hd
          show FreeListDead (sweep rest (mm.free b)).1.cells
            (sweep rest (mm.free b)).1.free_cell
          exact ih _ (freeListDead_free mm b cell hlk hd hf)

/-- `collect` is a mark phase over the root values followed by a sweep over
every cell. -/
theorem collect_eq (mm : MemoryManager) (vm : VM) :
    mm.collect vm
      = sweep (((rootValues mm vm).foldl mark mm.cells).map Prod.fst)
          { mm with cells := (rootValues mm vm).foldl mark mm.cells } := by
  unfold MemoryManager.collect rootValues
  rw [List.foldl_append, List.foldl_append]
  rfl

/-- Survival: a cell reachable from one of the four root groups keeps its
payload through a collection, with the mark bit cleared. -/
theorem collect_survives (mm : MemoryManager) (vm : VM)
    (hnd : (mm.cells.map Prod.fst).Nodup)
    (hu : ∀ p ∈ mm.cells, p.2.mark = false)
    (a : Nat) (c : Cell) (hl : lookupCell mm.cells a = some c)
    (hra : RootReachable mm vm a) (hpa : is_pointer a = true) :
    lookupCell (mm.collect vm).1.cells a = some ⟨false, c.content⟩ := by
  have hu' : ∀ x cx, lookupCell mm.cells x = some cx → cx.mark = false :=
    fun x cx hx => hu (x, cx) (lookupCell_mem hx)
  have hext := foldl_mark_markExtends (rootValues mm vm) mm.cells
  have hndH : (((rootValues mm vm).foldl mark mm.cells).map Prod.fst).Nodup := by
    rw [markExtends_map_fst hext]
    exact hnd
  have hlH : ∃ cH, lookupCell ((rootValues mm vm).foldl mark mm.cells) a
      = some cH ∧ cH.content = c.content := by
    rcases markExtends_lookup hext a with ⟨h1, _⟩ | ⟨d, d', hd, hd', hdc, _⟩
    · rw [hl] at h1
      cases h1
    · rw [hl] at hd
      cases hd
      exact ⟨d', hd', hdc⟩
  obtain ⟨cH, hcH, hcHc⟩ := hlH
  have hmem : a ∈ ((rootValues mm vm).foldl mark mm.cells).map Prod.fst :=
    lookupCell_mem_fst hcH
  obtain ⟨r, hr, hre⟩ := hra
  have hmarked : cH.mark = true :=
    foldl_mark_complete (rootValues mm vm) mm.cells hu' r hr a hre hpa cH hcH
  rw [collect_eq]
  obtain ⟨h1, _, _⟩ := sweep_lookup_mem
    (((rootValues mm vm).foldl mark mm.cells).map Prod.fst)
    { mm with cells := (rootValues mm vm).foldl mark mm.cells }
    a cH hndH hmem hcH
  rw [h1 hmarked, hcHc]

/-- Freeing: a non-dead cell not reachable from any of the four root groups
is freed by the collection. -/
theorem collect_frees (mm : MemoryManager) (vm : VM)
    (hnd : (mm.cells.map Prod.fst).Nodup)
    (hu : ∀ p ∈ mm.cells, p.2.mark = false)
    (a : Nat) (c : Cell) (hl : lookupCell mm.cells a = some c)
    (hdead : c.content.typeOf ≠ kTypeDead)
    (hnr : ¬ RootReachable mm vm a) :
    ∃ nx, lookupCell (mm.collect vm).1.cells a = some ⟨false, .dead nx⟩ := by
  have hu' : ∀ x cx, lookupCell mm.cells x = some cx → cx.mark = false :=
    fun x cx hx => hu (x, cx) (lookupCell_mem hx)
  have hext := foldl_mark_markExtends (rootValues mm vm) mm.cells
  have hndH : (((rootValues mm vm).foldl mark mm.cells).map Prod.fst).Nodup := by
    rw [markExtends_map_fst hext]
    exact hnd
  have hlH : ∃ cH, lookupCell ((rootValues mm vm).foldl mark mm.cells) a
      = some cH ∧ cH.content = c.content := by
    rcases markExtends_lookup hext a with ⟨h1, _⟩ | ⟨d, d', hd, hd', hdc, _⟩
    · rw [hl] at h1
      cases h1
    · rw [hl] at hd
      cases hd
      exact ⟨d', hd', hdc⟩
  obtain ⟨cH, hcH, hcHc⟩ := hlH
  have hmem : a ∈ ((rootValues mm vm).foldl mark mm.cells).map Prod.fst :=
    lookupCell_mem_fst hcH
  have hunm : cH.mark = false := by
    cases hmk : cH.mark
    · rfl
    · exfalso
      rcases foldl_mark_sound (rootValues mm vm) mm.cells a cH hcH hmk with
        ⟨c0, hc0, hm0⟩ | ⟨r, hr, hre⟩
      · rw [hu' a c0 hc0] at hm0
        cases hm0
      · exact hnr ⟨r, hr, hre⟩
  have hdH : cH.content.typeOf ≠ kTypeDead := by
    rw [hcHc]
    exact hdead
  rw [collect_eq]
  obtain ⟨_, _, h3⟩ := sweep_lookup_mem
    (((rootValues mm vm).foldl mark mm.cells).map Prod.fst)
    { mm with cells := (rootValues mm vm).foldl mark mm.cells }
    a cH hndH hmem hcH
  exact h3 hunm hdH

/-- A collection does not change the set of cell addresses. -/
theorem collect_map_fst (mm : MemoryManager) (vm : VM) :
    (mm.collect vm).1.cells.map Prod.fst = mm.cells.map Prod.fst := by
  rw [collect_eq, sweep_map_fst]
  exact markExtends_map_fst (foldl_mark_markExtends (rootValues mm vm) mm.cells)

/-- A collection does not change the region count. -/
theorem collect_heap_count (mm : MemoryManager) (vm : VM) :
    (mm.collect vm).1.heap_count = mm.heap_count := by
  rw [collect_eq, sweep_heap_count]

/-- C1 amended: on collection the GC marks as roots exactly the operand
stack, the temporary-root set, the current frame chain and the current
catch-table chain — the task queue, the timers and intervals and the
primitive-class references are not among the roots.  Starting from an
unmarked heap with distinct cell addresses, every non-dead cell reachable
from one of those four root groups survives the collection with its payload
intact, and every non-dead cell not reachable from them is freed. -/
theorem C1_collect_roots (mm : MemoryManager) (vm : VM)
    (hnd : (mm.cells.map Prod.fst).Nodup)
    (hu : ∀ p ∈ mm.cells, p.2.mark = false) :
    ∀ a c, lookupCell mm.cells a = some c → c.content.typeOf ≠ kTypeDead →
      ((RootReachable mm vm a ∧ is_pointer a = true) →
        lookupCell (mm.collect vm).1.cells a = some ⟨false, c.content⟩)
      ∧ (¬ RootReachable mm vm a →
        ∃ nx, lookupCell (mm.collect vm).1.cells a
          = some ⟨false, .dead nx⟩) := by
  intro a c hl hdead
  exact ⟨fun hra => collect_survives mm vm hnd hu a c hl hra.1 hra.2,
    fun hnr => collect_frees mm vm hnd hu a c hl hdead hnr⟩

/-- C1 as stated is false at a concrete state: a live cell referenced only
as the function of a queued task is not treated as a root — the collection
frees it instead of letting it survive. -/
theorem C1_counterexample :
    vmTask.task_queue.map VMTask.fn = [16]
    ∧ lookupCell mmTask.cells 16 = some ⟨false, .array []⟩
    ∧ (mmTask.collect vmTask).1.cells = [(16, ⟨false, .dead none⟩)]
    ∧ (mmTask.collect vmTask).1.free_cell = some 16 := by
  refine ⟨rfl, rfl, ?_, ?_⟩ <;> decide

/-- Witness for the amended C1 at a concrete state, instantiated at the
unreachable cell 32. -/
theorem C1_collect_roots_witness :
    ((mmLive.cells.map Prod.fst).Nodup
      ∧ (∀ p ∈ mmLive.cells, p.2.mark = false)
      ∧ lookupCell mmLive.cells 32 = some ⟨false, .stringv⟩
      ∧ CellContent.stringv.typeOf ≠ kTypeDead)
    ∧ (((RootReachable mmLive vmLive 32 ∧ is_pointer 32 = true) →
        lookupCell (mmLive.collect vmLive).1.cells 32
          = some ⟨false, .stringv⟩)
      ∧ (¬ RootReachable mmLive vmLive 32 →
        ∃ nx, lookupCell (mmLive.collect vmLive).1.cells 32
          = some ⟨false, .dead nx⟩)) := by
  refine ⟨⟨by decide, by decide, by decide, by decide⟩, ?_⟩
  exact C1_collect_roots mmLive vmLive (by decide) (by decide) 32
    ⟨false, .stringv⟩ (by decide) (by decide)

/-- C7: after a completed collection cycle from a well-formed state
(distinct addresses, all marks clear, a dead free list, no dead cell
reachable from the roots): no cell is simultaneously reachable from the GC
roots and on the free list; every cell — in particular every cell marked
during the cycle — has its mark bit cleared; and every cell on the free
list is dead with its flags zeroed. -/
theorem C7_collect_invariants (mm : MemoryManager) (vm : VM)
    (hnd : (mm.cells.map Prod.fst).Nodup)
    (hu : ∀ p ∈ mm.cells, p.2.mark = false)
    (hfree : FreeListDead mm.cells mm.free_cell)
    (hlive : ∀ a, RootReachable mm vm a → is_pointer a = true →
      ∀ c, lookupCell mm.cells a = some c → c.content.typeOf ≠ kTypeDead) :
    (∀ a, RootReachable mm vm a → is_pointer a = true →
      ¬ FreeReach (mm.collect vm).1.cells (mm.collect vm).1.free_cell a)
    ∧ (∀ a ca, lookupCell (mm.collect vm).1.cells a = some ca →
        ca.mark = false)
    ∧ (∀ a, FreeReach (mm.collect vm).1.cells (mm.collect vm).1.free_cell a →
        ∃ nx, lookupCell (mm.collect vm).1.cells a
          = some ⟨false, .dead nx⟩) := by
  have hmarks : ∀ a ca, lookupCell (mm.collect vm).1.cells a = some ca →
      ca.mark = false := by
    rw [collect_eq]
    refine sweep_all_unmarked _ _ ?_ ?_
    · rw [markExtends_map_fst
        (foldl_mark_markExtends (rootValues mm vm) mm.cells)]
      exact hnd
    · intro x hx
      exact hx
  have hfld : FreeListDead (mm.collect vm).1.cells
      (mm.collect vm).1.free_cell := by
    rw [collect_eq]
    refine sweep_freeListDead _ _ ?_
    refine freeListDead_of_contentEq (fun b => ?_) hfree
    exact markExtends_lookup_content
      (foldl_mark_markExtends (rootValues mm vm) mm.cells) b
  have hfld' : ∀ a, FreeReach (mm.collect vm).1.cells
      (mm.collect vm).1.free_cell a →
      ∃ nx, lookupCell (mm.collect vm).1.cells a
        = some ⟨false, .dead nx⟩ := by
    intro a hfr
    obtain ⟨m, nx, hm⟩ := hfld a hfr
    have := hmarks a _ hm
    cases m
    · exact ⟨nx, hm⟩
    · cases this
  refine ⟨?_, hmarks, hfld'⟩
  intro a hra hpa hfr
  obtain ⟨nx, hnx⟩ := hfld' a hfr
  have hdom : a ∈ mm.cells.map Prod.fst := by
    have := lookupCell_mem_fst hnx
    rw [collect_map_fst] at this
    exact this
  obtain ⟨c, hc⟩ := lookupCell_isSome_of_mem hdom
  have hsurv := collect_survives mm vm hnd hu a c hc hra hpa
  rw [hnx] at hsurv
  have hcontent : CellContent.dead nx = c.content :=
    congrArg Cell.content (Option.some.inj hsurv)
  exact hlive a hra hpa c hc ((typeOf_eq_dead_iff _).mpr ⟨nx, hcontent.symm⟩)

/-- Witness for C7 at the concrete live state. -/
theorem C7_collect_invariants_witness :
    ((mmLive.cells.map Prod.fst).Nodup
      ∧ (∀ p ∈ mmLive.cells, p.2.mark = false))
    ∧ (∀ a, RootReachable mmLive vmLive a → is_pointer a = true →
        ¬ FreeReach (mmLive.collect vmLive).1.cells
          (mmLive.collect vmLive).1.free_cell a)
    ∧ (∀ a ca, lookupCell (mmLive.collect vmLive).1.cells a = some ca →
        ca.mark = false) := by
  refine ⟨⟨by decide, by decide⟩, ?_⟩
  have hlive : ∀ a, RootReachable mmLive vmLive a → is_pointer a = true →
      ∀ c, lookupCell mmLive.cells a = some c →
        c.content.typeOf ≠ kTypeDead := by
    intro a _ _ c hc
    have hmem := lookupCell_mem hc
    simp only [mmLive, List.mem_cons, List.mem_singleton] at hmem
    rcases hmem with h | h | h | h
    · rw [(Prod.mk.injEq _ _ _ _ |>.mp h).2]
      decide
    · rw [(Prod.mk.injEq _ _ _ _ |>.mp h).2]
      decide
    · rw [(Prod.mk.injEq _ _ _ _ |>.mp h).2]
      decide
    · cases h
  have hfree : FreeListDead mmLive.cells mmLive.free_cell :=
    fun a hfr => absurd hfr (freeReach_none _ a)
  obtain ⟨h1, h2, _⟩ := C7_collect_invariants mmLive vmLive (by decide)
    (by decide) hfree hlive
  exact ⟨h1, h2⟩

/-- C8 as stated is false at two concrete heaps: marking a frame leaves the
frame's last active catch table unmarked, and marking a function leaves the
function's container values unmarked. -/
theorem C8_counterexample :
    lookupCell (mark frameHeap 16) 16 = some ⟨true, .frame 0 0 24 0 [] 8⟩
    ∧ lookupCell (mark frameHeap 16) 24 = some ⟨false, .catchtable 0 0⟩
    ∧ lookupCell (mark funcHeap 16) 16
      = some ⟨true, .function 12 0 0 false 0 [(12, 24)]⟩
    ∧ lookupCell (mark funcHeap 16) 24 = some ⟨false, .array []⟩ := by
  refine ⟨?_, ?_, ?_, ?_⟩ <;> decide

/-- C8 amended: when mark visits an unmarked Frame cell it marks the caller
frame, the lexical parent frame, the owning function, the self value and
every local slot — but not the frame's last active catch table; when it
visits an unmarked Function cell it marks the lexical context frame, the
instruction block and the bound self when it is set — but not the
function's container values. -/
theorem C8_mark_frame_function (h : Heap)
    (hu : ∀ p ∈ h, p.2.mark = false) (v : Nat) (hp : is_pointer v = true) :
    (∀ parent pe cat func env self,
      lookupCell h v = some ⟨false, .frame parent pe cat func env self⟩ →
      ∀ b, b ∈ [parent, pe, func, self] ++ env → is_pointer b = true →
        ∀ cb, lookupCell (mark h v) b = some cb → cb.mark = true)
    ∧ (∀ name context block bset bself container,
      lookupCell h v
          = some ⟨false, .function name context block bset bself container⟩ →
      ∀ b, b ∈ [context, block] ++ (if bset then [bself] else []) →
        is_pointer b = true →
        ∀ cb, lookupCell (mark h v) b = some cb → cb.mark = true) := by
  have hu' : ∀ x cx, lookupCell h x = some cx → cx.mark = false :=
    fun x cx hx => hu (x, cx) (lookupCell_mem hx)
  have hone : ∀ (c : Cell), lookupCell h v = some c →
      ∀ b, b ∈ c.content.gcReferences → is_pointer b = true →
      ∀ cb, lookupCell (mark h v) b = some cb → cb.mark = true := by
    intro c hc b hb hpb cb hcb
    have hre : Reaches h v b := Reaches.step Reaches.refl hp c hc hb
    have := foldl_mark_complete [v] h hu' v (List.mem_singleton.mpr rfl) b
      hre hpb
    exact this cb hcb
  constructor
  · intro parent pe cat func env self hc b hb
    exact hone _ hc b hb
  · intro name context block bset bself container hc b hb
    exact hone _ hc b hb

theorem C8_mark_frame_function_witness :
    ((∀ p ∈ frameHeapW, p.2.mark = false)
      ∧ is_pointer 16 = true
      ∧ lookupCell frameHeapW 16 = some ⟨false, .frame 0 0 0 0 [] 24⟩
      ∧ (24 : Nat) ∈ [0, 0, 0, 24] ++ ([] : List Nat)
      ∧ is_pointer 24 = true)
    ∧ (∀ cb, lookupCell (mark frameHeapW 16) 24 = some cb →
        cb.mark = true) := by
  refine ⟨⟨by decide, by decide, by decide, by decide, by decide⟩, ?_⟩
  exact (C8_mark_frame_function frameHeapW (by decide) 16 (by decide)).1
    0 0 0 0 [] 24 (by decide) 24 (by decide) (by decide)

/-! ## Allocation (C6) -/

theorem add_heap_heap_count (cfg : GCConfig) (mm : MemoryManager) :
    (mm.add_heap cfg).heap_count = mm.heap_count + 1 := rfl

theorem iterate_add_heap_heap_count (cfg : GCConfig) :
    ∀ (k : Nat) (mm : MemoryManager),
    ((MemoryManager.add_heap cfg)^[k] mm).heap_count = mm.heap_count + k := by
  intro k
  induction k with
  | zero =>
    intro mm
    rfl
  | succ n ih =>
    intro mm
    rw [Function.iterate_succ_apply, ih, add_heap_heap_count]
    omega

/-- Growing multiplies the region count by the growth factor. -/
theorem grow_heap_heap_count (cfg : GCConfig) (mm : MemoryManager)
    (hg : 1 ≤ cfg.growth_factor) :
    (mm.grow_heap cfg).heap_count = mm.heap_count * cfg.growth_factor := by
  unfold MemoryManager.grow_heap
  rw [iterate_add_heap_heap_count]
  have h2 : mm.heap_count * 1 ≤ mm.heap_count * cfg.growth_factor :=
    Nat.mul_le_mul_left _ hg
  omega

/-- C6 amended: `allocate` always returns the pre-call head of the free
list — the null cell when the list was already empty, so allocation failure
is not fatal; a collection is triggered exactly when the pop empties the
free list; when the free list is still empty after that collection the
region count is multiplied by the growth factor; and when even growing
fails to produce a free cell, the allocator emits its diagnostic and still
returns the popped cell. -/
theorem C6_allocate (cfg : GCConfig) (mm : MemoryManager) (vm : VM)
    (hg : 1 ≤ cfg.growth_factor) :
    (mm.allocate cfg vm).1 = mm.free_cell
    ∧ (∀ a, mm.free_cell = some a →
        ((∃ n, GCEvent.collected n ∈ (mm.allocate cfg vm).2.2) ↔
          freeNext mm.cells a = none))
    ∧ (∀ a, mm.free_cell = some a → freeNext mm.cells a = none →
        ((({ mm with free_cell := none } : MemoryManager).collect vm).1.free_cell
            = none →
          (mm.allocate cfg vm).2.1.heap_count
            = mm.heap_count * cfg.growth_factor))
    ∧ (GCEvent.warnedExpandFailed ∈ (mm.allocate cfg vm).2.2 →
        ∃ a, (mm.allocate cfg vm).1 = some a) := by
  cases hfc : mm.free_cell with
  | none =>
    simp only [MemoryManager.allocate, hfc]
    refine ⟨by trivial, ?_, ?_, ?_⟩
    · intro a ha
      cases ha
    · intro a ha
      cases ha
    · intro hw
      cases hw
  | some a0 =>
    simp only [MemoryManager.allocate, hfc]
    cases hnext : freeNext mm.cells a0 with
    | some b =>
      simp only [hnext]
      refine ⟨by trivial, ?_, ?_, ?_⟩
      · intro a ha
        cases ha
        constructor
        · rintro ⟨n, hn⟩
          cases hn
        · intro hcon
          rw [hcon] at hnext
          cases hnext
      · intro a ha hcon
        cases ha
        rw [hcon] at hnext
        cases hnext
      · intro hw
        cases hw
    | none =>
      simp only [hnext]
      cases hcf : (({ mm with free_cell := none } : MemoryManager).collect
          vm).1.free_cell with
      | some b =>
        simp only [hcf]
        refine ⟨by trivial, ?_, ?_, ?_⟩
        · intro a ha
          cases ha
          constructor
          · intro _
            exact hnext
          · intro _
            exact ⟨_, List.mem_singleton.mpr rfl⟩
        · intro a ha hn hcon
          cases hcon
        · intro hw
          rcases List.mem_singleton.mp hw with h
          cases h
      | none =>
        simp only [hcf]
        have hhc : ((({ mm with free_cell := none } : MemoryManager).collect
            vm).1.grow_heap cfg).heap_count
            = mm.heap_count * cfg.growth_factor := by
          rw [grow_heap_heap_count _ _ hg, collect_heap_count]
        cases hg3 : ((({ mm with free_cell := none } : MemoryManager).collect
            vm).1.grow_heap cfg).free_cell with
        | some c =>
          simp only [hg3]
          refine ⟨by trivial, ?_, ?_, ?_⟩
          · intro a ha
            cases ha
            exact ⟨fun _ => hnext, fun _ => ⟨_, List.mem_singleton.mpr rfl⟩⟩
          · intro a ha hn _
            exact hhc
          · intro hw
            rcases List.mem_singleton.mp hw with h
            cases h
        | none =>
          simp only [hg3]
          refine ⟨by trivial, ?_, ?_, ?_⟩
          · intro a ha
            cases ha
            exact ⟨fun _ => hnext, fun _ =>
              ⟨(({ mm with free_cell := none } : MemoryManager).collect vm).2,
                List.mem_cons_self _ _⟩⟩
          · intro a ha hn _
            exact hhc
          · intro _
            exact ⟨a0, rfl⟩

/-- C6 as stated is false at a concrete state: when growth fails to refill
the free list the allocator emits its diagnostic but does not terminate —
it still returns the popped cell, and the next allocation returns the null
cell instead of being prevented. -/
theorem C6_counterexample :
    (mmOneFree.allocate cfgGrow2 vmEmpty).1 = some 16
    ∧ GCEvent.warnedExpandFailed ∈ (mmOneFree.allocate cfgGrow2 vmEmpty).2.2
    ∧ ((mmOneFree.allocate cfgGrow2 vmEmpty).2.1.allocate cfgGrow2
        vmEmpty).1 = none := by
  refine ⟨?_, ?_, ?_⟩ <;> decide

/-- Witness for the amended C6 at the concrete one-free-cell state. -/
theorem C6_allocate_witness :
    1 ≤ cfgGrow2.growth_factor
    ∧ ((mmOneFree.allocate cfgGrow2 vmEmpty).1 = mmOneFree.free_cell
      ∧ (∀ a, mmOneFree.free_cell = some a →
          ((∃ n, GCEvent.collected n
              ∈ (mmOneFree.allocate cfgGrow2 vmEmpty).2.2) ↔
            freeNext mmOneFree.cells a = none))
      ∧ (∀ a, mmOneFree.free_cell = some a →
          freeNext mmOneFree.cells a = none →
          ((({ mmOneFree with free_cell := none } : MemoryManager).collect
              vmEmpty).1.free_cell = none →
            (mmOneFree.allocate cfgGrow2 vmEmpty).2.1.heap_count
              = mmOneFree.heap_count * cfgGrow2.growth_factor))
      ∧ (GCEvent.warnedExpandFailed
            ∈ (mmOneFree.allocate cfgGrow2 vmEmpty).2.2 →
          ∃ a, (mmOneFree.allocate cfgGrow2 vmEmpty).1 = some a)) :=
  ⟨by decide, C6_allocate cfgGrow2 mmOneFree vmEmpty (by decide)⟩

end Charly

